import Mathlib

/-!
Verification of the deep-search text-generation coordination engine.

Shallow embedding of `nemo_aligner/utils/deep_search/text_gen_utils.py`:
the functions `sample_sequence_batch` (batched decode loop) and `search`
(driving-rank request classification and orchestration).

Modelling conventions:
* Tensors become Lean lists; an uninitialized tensor row (torch's
  `torch.cuda.IntTensor(B, K)` allocates without zeroing) is `none`.
* The external inference strategy, pipeline-stage predicates and model
  numerics are parameters (`Strategy`, `lastStage`, `firstStage`); the
  terminal-stage gathered last-position logits at loop iteration `counter`
  are `Strategy.forwardLogits counter` (one row of `paddedVocab` rationals
  per batch sample).
* Python exceptions are modelled as an `Option String` error component that
  aborts the remaining computation; the state reached before the raise is
  kept so that the trace of collaborator calls stays observable.
* `-float("Inf")` produced by the vocabulary mask is `none : Option ℚ`
  (ordered below every `some q`, and of weight zero under softmax), while
  genuine model logits are finite rationals.
* `F.softmax` applies `exp` then normalizes; `exp` is transcendental, so the
  softmax is parameterized by a weight function `w : ℚ → ℚ` about which the
  theorems assume exactly what holds of `exp` (positivity, monotonicity).
-/

namespace NemoSearch

/-- Order on masked logits: `none` plays the role of `-float("Inf")`,
below every finite logit. -/
def optLE : Option ℚ → Option ℚ → Bool
  | none, _ => true
  | some _, none => false
  | some a, some b => decide (a ≤ b)

/-- `logits[:, tokenizer.vocab_size:] = -float("Inf")`: mask every index
`≥ vocab` of one gathered logits row to `-Inf` (`none`). -/
def maskRow (vocab : ℕ) (row : List ℚ) : List (Option ℚ) :=
  row.enum.map fun p => if p.1 < vocab then some p.2 else none

/-- Extract a maximal-value pair from an indexed row, preferring the
leftmost among ties (the enum order is ascending index), together with the
remaining pairs in their original order. -/
def pickMax : List (ℕ × Option ℚ) → Option ((ℕ × Option ℚ) × List (ℕ × Option ℚ))
  | [] => none
  | p :: ps =>
    match pickMax ps with
    | none => some (p, [])
    | some (q, rest) =>
        if optLE q.2 p.2 then some (p, ps) else some (q, p :: rest)

/-- Selection of the `k` largest pairs, values descending, ties broken by
ascending index: the semantics of `torch.topk` on one row. -/
def selectTopk : ℕ → List (ℕ × Option ℚ) → List (ℕ × Option ℚ)
  | 0, _ => []
  | k + 1, l =>
    match pickMax l with
    | none => []
    | some (q, rest) => q :: selectTopk k rest

/-- `torch.topk(row, k)` on one row: the `k` largest entries, values
descending, as `(index, value)` pairs. -/
def topkPairs (k : ℕ) (mrow : List (Option ℚ)) : List (ℕ × Option ℚ) :=
  selectTopk k mrow.enum

/-- Weight of a masked logit under the (abstract) softmax kernel `w`:
`exp(-Inf) = 0`. -/
def evalW (w : ℚ → ℚ) : Option ℚ → ℚ
  | none => 0
  | some q => w q

/-- `F.softmax(updated_logits, dim=-1)` on one row of selected logits,
with the transcendental `exp` abstracted as `w`. -/
def softmaxW (w : ℚ → ℚ) (sel : List (Option ℚ)) : List ℚ :=
  let d := (sel.map (evalW w)).sum
  sel.map fun v => evalW w v / d

/-- Mutable state threaded through the decode loop of
`sample_sequence_batch`.  `outputActions` / `outputLogits` model the
uninitialized `output_actions` / `output_policy` tensors (a row is `none`
until the loop writes it; `outputLogits` keeps the selected top-k logits,
from which the stored policy row is `softmaxW w`).  `forwardCalls` counts
invocations of `inference_strategy.forward_step`, `itersStarted` the loop
iterations entered, `itersDone` the iterations completed. -/
structure LoopState where
  outputActions : List (Option (List ℕ))
  outputLogits : List (Option (List (Option ℚ)))
  forwardCalls : ℕ
  itersStarted : ℕ
  itersDone : ℕ
  deriving Repr, DecidableEq

/-- External collaborators of the coordination engine (§6 StrategyPort),
consumed but not implemented by the core. -/
structure Strategy where
  /-- `inference_strategy.clip_max_len`. -/
  clip_max_len : ℕ → ℕ
  /-- `inference_strategy.tokenize_batch(inputs, 0, False)`:
  token rows and context lengths. -/
  tokenize_batch : List (List ℤ) → List (List ℤ) × List ℕ
  /-- `inference_strategy.compute_inference_params(sessions, depth, action)`. -/
  compute_inference_params : List ℕ → List ℤ → List ℤ → List (List ℤ) × List ℕ
  /-- Gathered full-vocabulary last-position logits produced on the terminal
  pipeline stage by the `forward_step` of loop iteration `counter`
  (one row of `paddedVocab` entries per batch sample). -/
  forwardLogits : ℕ → List (List ℚ)

/-- `inference_strategy.forward_step(batch, tensor_shape, sessions, init)`:
returns the model output on the terminal pipeline stage and `None`
elsewhere. -/
def forward_step (S : Strategy) (counter : ℕ) (lastStage : Bool) :
    Option (List (List ℚ)) :=
  if lastStage then some (S.forwardLogits counter) else none

/-- The masked write
`output_actions[batch_update_indicator] = actions[batch_update_indicator]`:
row `b` receives its freshly computed value exactly when
`context_lengths[b] == context_length` (the current cursor); every other
row keeps its previous contents. -/
def updateRows {α : Type} (ctxLens : List ℕ) (cursor : ℕ)
    (old : List (Option α)) (new : List α) : List (Option α) :=
  (old.zip (new.zip ctxLens)).map fun p =>
    if p.2.2 = cursor then some p.2.1 else p.1

/-- One iteration of the `while context_length < maxlen` body of
`sample_sequence_batch` at cursor `cursor` and step counter `counter`.
Returns the successor state and `some msg` when the body raises. -/
def decodeStep (S : Strategy) (vocab top_k : ℕ) (ctxLens : List ℕ)
    (init lastStage : Bool) (cursor counter : ℕ) (st : LoopState) :
    LoopState × Option String :=
  -- `if init: output = forward_step(...) else: output = None`
  let output : Option (List (List ℚ)) :=
    if init then forward_step S counter lastStage else none
  let st1 : LoopState :=
    { st with
      itersStarted := st.itersStarted + 1
      forwardCalls := st.forwardCalls + (if init then 1 else 0) }
  if lastStage then
    match output with
    | none =>
        -- `output[0]["logits"]` with `output = None`
        (st1, some "TypeError: NoneType object is not subscriptable")
    | some rows =>
        if rows.all fun r => top_k ≤ r.length then
          let sel := rows.map fun r => topkPairs top_k (maskRow vocab r)
          let actionsAll := sel.map (List.map Prod.fst)
          let logitsAll := sel.map (List.map Prod.snd)
          ({ st1 with
             outputActions := updateRows ctxLens cursor st1.outputActions actionsAll
             outputLogits := updateRows ctxLens cursor st1.outputLogits logitsAll
             itersDone := st1.itersDone + 1 }, none)
        else
          -- `torch.topk(logits, top_k)` with `top_k` above the tensor width
          (st1, some "RuntimeError: selected index k out of range")
  else
    ({ st1 with itersDone := st1.itersDone + 1 }, none)

/-- Iterations of the decode-loop body, counted down by the remaining
iteration budget `fuel = maxlen - cursor` (the loop guard
`cursor < maxlen` together with `cursor += 1` per iteration makes this the
exact remaining trip count). -/
def decodeLoopAux (S : Strategy) (vocab top_k : ℕ) (ctxLens : List ℕ)
    (init lastStage : Bool) : ℕ → ℕ → ℕ → LoopState → LoopState × Option String
  | 0, _, _, st => (st, none)
  | fuel + 1, cursor, counter, st =>
    match decodeStep S vocab top_k ctxLens init lastStage cursor counter st with
    | (st', some e) => (st', some e)
    | (st', none) =>
        decodeLoopAux S vocab top_k ctxLens init lastStage fuel
          (cursor + 1) (counter + 1) st'

/-- The decode loop `while context_length < maxlen: ...; context_length += 1;
counter += 1`, threading the loop state and aborting on a raise. -/
def decodeLoop (S : Strategy) (vocab top_k : ℕ) (ctxLens : List ℕ)
    (init lastStage : Bool) (maxlen cursor counter : ℕ)
    (st : LoopState) : LoopState × Option String :=
  decodeLoopAux S vocab top_k ctxLens init lastStage (maxlen - cursor)
    cursor counter st

/-- Fresh loop state: both output tensors allocated uninitialized
(`torch.cuda.IntTensor(batch_size, top_k)` / `FloatTensor`), no
collaborator calls yet. -/
def initState (B : ℕ) : LoopState :=
  ⟨List.replicate B none, List.replicate B none, 0, 0, 0⟩

/-- One `inference_strategy.save_kv_cache(sessions, depths, batch_size,
context_lengths, parent_nodes, actions_taken, tokens)` call recorded in the
order it is issued.  `parents` are the `(session, depth, action)` keys used
for `get_node`; an action read from an uninitialized tensor row is `none`. -/
structure SaveEntry where
  sessions : List ℕ
  depths : List ℤ
  parents : List (Option (ℕ × ℤ × ℤ))
  actions : List (Option ℤ)
  payload : Option (List (List ℤ))
  deriving Repr, DecidableEq

/-- `output_actions[:, j]`: column `j` of the (possibly still uninitialized)
output-actions tensor, as signed token ids. -/
def column (j : ℕ) (rows : List (Option (List ℕ))) : List (Option ℤ) :=
  rows.map fun r => r.bind fun row => row[j]?.map Int.ofNat

/-- Observable outcome of one `sample_sequence_batch` call: the two output
tensors (uninitialized rows are `none`; a policy row is recovered from its
stored top-k logits by `softmaxW`), the final contents of the in-place
mutated `depths` tensor, the trace of `save_kv_cache` calls, the
collaborator call counters and the number of result broadcasts issued. -/
structure SampleResult where
  output_actions : List (Option (List ℕ))
  output_logits : List (Option (List (Option ℚ)))
  depths_final : List ℤ
  saveLog : List SaveEntry
  forwardCalls : ℕ
  itersStarted : ℕ
  itersDone : ℕ
  broadcasts : ℕ
  deriving Repr, DecidableEq

/-- `sample_sequence_batch(model, inference_strategy, context_tokens,
context_lengths, tokens_to_generate, end_strings, sessions, top_k, init,
depths)`, for one rank whose pipeline role is given by `lastStage` /
`firstStage` and whose tokenizer has true vocabulary size `vocab`.
A raise inside the decode loop aborts the call (`some msg`), skipping the
node registration and the result broadcasts. -/
def sample_sequence_batch (S : Strategy) (context_tokens : List (List ℤ))
    (context_lengths : List ℕ) (top_k : ℕ) (init : Bool) (depths : List ℤ)
    (sessions : List ℕ) (lastStage firstStage : Bool) (vocab : ℕ) :
    SampleResult × Option String :=
  let B := context_tokens.length
  -- `context_length = context_lengths.min().item()`
  let c0 := context_lengths.min?.getD 0
  -- `maxlen = inference_strategy.clip_max_len(1 + context_lengths.max().item())`
  let maxlen := S.clip_max_len (1 + context_lengths.max?.getD 0)
  match decodeLoop S vocab top_k context_lengths init lastStage maxlen
      c0 0 (initState B) with
  | (st, some e) =>
      ({ output_actions := st.outputActions, output_logits := st.outputLogits,
         depths_final := depths, saveLog := [],
         forwardCalls := st.forwardCalls, itersStarted := st.itersStarted,
         itersDone := st.itersDone, broadcasts := 0 }, some e)
  | (st, none) =>
      -- `if init:` root registration, then `depths += 1`, then one
      -- `save_kv_cache` per top-k column under parents `(session, 0, -1)`
      let log : List SaveEntry :=
        if init then
          ⟨sessions, depths, List.replicate B none,
            List.replicate B (some (-1)), some context_tokens⟩ ::
          (List.range top_k).map fun j =>
            ⟨sessions, depths.map (· + 1),
              sessions.map fun s => some (s, (0 : ℤ), (-1 : ℤ)),
              column j st.outputActions, none⟩
        else []
      let depths1 := if init then depths.map (· + 1) else depths
      ({ output_actions := st.outputActions, output_logits := st.outputLogits,
         depths_final := depths1, saveLog := log,
         forwardCalls := st.forwardCalls, itersStarted := st.itersStarted,
         itersDone := st.itersDone,
         broadcasts := if lastStage || firstStage then 2 else 0 }, none)

/-- Externally observable collaborator and collective calls issued by
`search` on the driving rank, in program order. -/
inductive Event where
  | sendInfo      -- `send_generate_info(...)`: first collective call
  | stratInit     -- `inference_strategy.init(...)`
  | computeParams -- `inference_strategy.compute_inference_params(...)`
  | broadcastOut  -- `torch.distributed.broadcast(output_..., src, group)`
  deriving Repr, DecidableEq

/-- Observable outcome of one `search` call on the driving rank.
`callerDepthAfter` is the contents of the caller-supplied `depth` argument
after the call: `torch.cuda.IntTensor(depth)` copies its input, and
`depths += 1` runs only on the tensor local to `search`, so the caller's
argument is returned unchanged.  `internalDepthAfter` is the final contents
of the `depth` tensor `search` itself threads into
`sample_sequence_batch` (when reached). -/
structure SearchResult where
  outActions : List (Option (List ℕ))
  outLogits : List (Option (List (Option ℚ)))
  events : List Event
  err : Option String
  callerDepthAfter : Option (List ℤ)
  internalDepthAfter : Option (List ℤ)
  deriving Repr, DecidableEq

/-- Malformed-request outcome: an `assert` in the classification block of
`search` fails on the driving rank before any tensor is built or any
collective is issued. -/
def assertFail (msg : String) (depth : Option (List ℤ)) : SearchResult :=
  ⟨[], [], [], some msg, depth, none⟩

/-- `search(model, inputs, action, depth, sessions, tokens_to_generate,
top_k, end_strings, strategy=...)` as executed by the driving rank
(`torch.distributed.get_rank() == get_model_parallel_src_rank()`).
Classification: `inputs is None` demands `action` and `depth` present
(continuation); `inputs` present demands both absent (root).  After the
`send_generate_info` collective, `init = depth[0].item() == 0` selects
between `inference_strategy.init` (root) and `compute_inference_params`
(continuation), and `sample_sequence_batch` produces the frontier.
`post_generation_process` is an opaque collaborator hook on the returned
dict and is not modelled. -/
def search (S : Strategy) (inputs : Option (List (List ℤ)))
    (action depth : Option (List ℤ)) (sessions : List ℕ) (top_k : ℕ)
    (lastStage firstStage : Bool) (vocab : ℕ) : SearchResult :=
  -- classification on the driving rank, before `send_generate_info`
  let body := fun (toks0 : List (List ℤ)) (lens0 : List ℕ)
      (act dep : List ℤ) =>
    -- `send_generate_info(...)`: the first collective call
    let ev0 := [Event.sendInfo]
    match dep.head? with
    | none =>
        -- `depth[0].item()` on an empty tensor
        (⟨[], [], ev0, some "IndexError: index 0 out of bounds", depth,
          none⟩ : SearchResult)
    | some d0 =>
        let init := d0 == 0
        let (toks, lens) :=
          if init then (toks0, lens0)
          else S.compute_inference_params sessions dep act
        let ev1 := ev0 ++ [if init then Event.stratInit else Event.computeParams]
        let re := sample_sequence_batch S toks lens top_k init dep sessions
          lastStage firstStage vocab
        ⟨re.1.output_actions, re.1.output_logits,
          ev1 ++ List.replicate re.1.broadcasts Event.broadcastOut, re.2,
          depth, some re.1.depths_final⟩
  match inputs with
  | none =>
      -- continuation shape: `assert action is not None; assert depth is not None`
      match action, depth with
      | none, _ => assertFail "AssertionError: action is not None" depth
      | some _, none => assertFail "AssertionError: depth is not None" depth
      | some act, some dep =>
          -- `torch.cuda.IntTensor(action)` / `(depth)` copy the caller data;
          -- `context_tokens_tensor` / `context_length_tensor` are allocated
          -- uninitialized placeholders of shape `(batch_size, 1)` / `(batch_size)`
          body (List.replicate act.length [0]) (List.replicate act.length 0)
            act dep
  | some prompts =>
      -- root shape: `assert action is None; assert depth is None`
      match action, depth with
      | some _, _ => assertFail "AssertionError: action is None" depth
      | none, some _ => assertFail "AssertionError: depth is None" depth
      | none, none =>
          let (toks, lens) := S.tokenize_batch prompts
          -- `depth = IntTensor(B,1); depth[:] = 0` and likewise `action`
          body toks lens (List.replicate toks.length 0)
            (List.replicate toks.length 0)

/-! ## Concrete collaborators used by witnesses -/

/-- A concrete strategy: two samples, padded logits width 4, intended true
vocabulary size 3 (index 3 is a padding slot), identity clip. -/
def demoStrategy : Strategy :=
  { clip_max_len := fun n => n
    tokenize_batch := fun _ => ([[5, 0], [7, 8]], [1, 2])
    compute_inference_params := fun _ _ _ => ([[9], [9]], [3, 3])
    forwardLogits := fun c =>
      if c = 0 then [[1, 2, 3, 9], [3, 1, 2, 9]] else [[0, 5, 1, 9], [2, 2, 7, 9]] }

/-- Same model but with a clip that caps the decode target at 2, below
`1 + max(context_lengths)` for the demo batch. -/
def demoClipStrategy : Strategy :=
  { demoStrategy with clip_max_len := fun _ => 2 }

/-! ## Frontier extraction, per batch row -/

/-- Top-k action ids computed for batch row `b` from the logits of loop
iteration `c`. -/
def frontierActions (S : Strategy) (vocab top_k c b : ℕ) : List ℕ :=
  (topkPairs top_k (maskRow vocab ((S.forwardLogits c)[b]?.getD []))).map
    Prod.fst

/-- Top-k selected logits computed for batch row `b` from the logits of loop
iteration `c`. -/
def frontierLogits (S : Strategy) (vocab top_k c b : ℕ) : List (Option ℚ) :=
  (topkPairs top_k (maskRow vocab ((S.forwardLogits c)[b]?.getD []))).map
    Prod.snd

/-! ## Helper lemmas -/

theorem optLE_refl (a : Option ℚ) : optLE a a = true := by
  cases a <;> simp [optLE]

theorem optLE_total (a b : Option ℚ) : optLE a b = true ∨ optLE b a = true := by
  cases a <;> cases b <;> simp [optLE] <;> exact le_total _ _

theorem optLE_trans {a b c : Option ℚ} (h1 : optLE a b = true)
    (h2 : optLE b c = true) : optLE a c = true := by
  cases a <;> cases b <;> cases c <;> simp_all [optLE] <;> exact le_trans h1 h2

theorem pickMax_eq_none_iff (l : List (ℕ × Option ℚ)) :
    pickMax l = none ↔ l = [] := by
  cases l with
  | nil => simp [pickMax]
  | cons p ps =>
    simp only [pickMax]
    cases pickMax ps with
    | none => simp
    | some qr =>
      rcases qr with ⟨q, rest⟩
      by_cases h : optLE q.2 p.2 = true <;> simp [h]

theorem pickMax_spec {l rest : List (ℕ × Option ℚ)} {q : ℕ × Option ℚ}
    (h : pickMax l = some (q, rest)) :
    rest.length + 1 = l.length ∧ rest.Sublist l ∧
      (∀ p ∈ l, optLE p.2 q.2 = true) := by
  induction l generalizing q rest with
  | nil => simp [pickMax] at h
  | cons p ps ih =>
    simp only [pickMax] at h
    split at h
    · rename_i hps
      have hnil : ps = [] := (pickMax_eq_none_iff ps).mp hps
      simp only [Option.some.injEq, Prod.mk.injEq] at h
      obtain ⟨hq, hrest⟩ := h
      subst hnil
      subst hq
      refine ⟨by simp [← hrest], by simp [← hrest], ?_⟩
      intro x hx
      have hx' : x = p := by simpa using hx
      subst hx'
      exact optLE_refl _
    · rename_i q1 rest1 hps
      obtain ⟨hlen, hsub, hmax⟩ := ih hps
      split at h
      · rename_i hcmp
        simp only [Option.some.injEq, Prod.mk.injEq] at h
        obtain ⟨hq, hrest⟩ := h
        subst hq hrest
        refine ⟨rfl, List.sublist_cons_self p ps, ?_⟩
        intro x hx
        rcases List.mem_cons.mp hx with hx | hx
        · subst hx; exact optLE_refl _
        · exact optLE_trans (hmax x hx) hcmp
      · rename_i hcmp
        simp only [Option.some.injEq, Prod.mk.injEq] at h
        obtain ⟨hq, hrest⟩ := h
        subst hq hrest
        refine ⟨by simpa using hlen, List.Sublist.cons₂ p hsub, ?_⟩
        intro x hx
        rcases List.mem_cons.mp hx with hx | hx
        · subst hx
          rcases optLE_total x.2 q1.2 with ht | ht
          · exact ht
          · exact absurd ht hcmp
        · exact hmax x hx

theorem pickMax_mem {l rest : List (ℕ × Option ℚ)} {q : ℕ × Option ℚ}
    (h : pickMax l = some (q, rest)) : q ∈ l := by
  induction l generalizing q rest with
  | nil => simp [pickMax] at h
  | cons p ps ih =>
    simp only [pickMax] at h
    split at h
    · simp only [Option.some.injEq, Prod.mk.injEq] at h
      simp [← h.1]
    · rename_i q1 rest1 hps
      split at h
      · simp only [Option.some.injEq, Prod.mk.injEq] at h
        simp [← h.1]
      · simp only [Option.some.injEq, Prod.mk.injEq] at h
        exact List.mem_cons_of_mem p (h.1 ▸ ih hps)

theorem selectTopk_length (k : ℕ) (l : List (ℕ × Option ℚ)) :
    (selectTopk k l).length = min k l.length := by
  induction k generalizing l with
  | zero => simp [selectTopk]
  | succ k ih =>
    simp only [selectTopk]
    rcases hp : pickMax l with _ | ⟨⟨q, rest⟩⟩
    · have : l = [] := (pickMax_eq_none_iff l).mp hp
      subst this; simp
    · obtain ⟨hlen, _, _⟩ := pickMax_spec hp
      simp only [List.length_cons, ih rest]
      omega

theorem selectTopk_subset {k : ℕ} {l : List (ℕ × Option ℚ)} :
    ∀ p ∈ selectTopk k l, p ∈ l := by
  induction k generalizing l with
  | zero => simp [selectTopk]
  | succ k ih =>
    intro p hp
    simp only [selectTopk] at hp
    rcases hq : pickMax l with _ | ⟨⟨q, rest⟩⟩
    · rw [hq] at hp; simp at hp
    · rw [hq] at hp
      obtain ⟨_, hsub, _⟩ := pickMax_spec hq
      rcases List.mem_cons.mp hp with hp | hp
      · subst hp
        have : l ≠ [] := by
          intro hnil; subst hnil; simp [pickMax] at hq
        rcases l with _ | ⟨x, xs⟩
        · simp at this
        · -- the selected pair is a member: it dominates itself via the spec
          -- or is recovered from the sublist structure
          have hq' := hq
          clear this
          exact pickMax_mem hq'
      · exact hsub.subset (ih p hp)

theorem selectTopk_sorted (k : ℕ) (l : List (ℕ × Option ℚ)) :
    (selectTopk k l).Pairwise (fun a b => optLE b.2 a.2 = true) := by
  induction k generalizing l with
  | zero => simp [selectTopk]
  | succ k ih =>
    simp only [selectTopk]
    rcases hq : pickMax l with _ | ⟨⟨q, rest⟩⟩
    · simp
    · obtain ⟨_, hsub, hmax⟩ := pickMax_spec hq
      refine List.pairwise_cons.mpr ⟨?_, ih rest⟩
      intro b hb
      exact hmax b (hsub.subset (selectTopk_subset b hb))

theorem maskRow_length (vocab : ℕ) (row : List ℚ) :
    (maskRow vocab row).length = row.length := by
  simp [maskRow]

theorem topkPairs_length (k : ℕ) (mrow : List (Option ℚ)) (hk : k ≤ mrow.length) :
    (topkPairs k mrow).length = k := by
  simp only [topkPairs, selectTopk_length, List.enum_length]
  omega

theorem topkPairs_snd_sorted (k : ℕ) (mrow : List (Option ℚ)) :
    ((topkPairs k mrow).map Prod.snd).Pairwise (fun a b => optLE b a = true) := by
  rw [List.pairwise_map]
  exact selectTopk_sorted k mrow.enum

theorem evalW_nonneg (w : ℚ → ℚ) (hpos : ∀ q, 0 < w q) (v : Option ℚ) :
    0 ≤ evalW w v := by
  cases v with
  | none => simp [evalW]
  | some q => exact le_of_lt (hpos q)

theorem evalW_mono (w : ℚ → ℚ) (hpos : ∀ q, 0 < w q)
    (hmono : ∀ a b : ℚ, a ≤ b → w a ≤ w b) {x y : Option ℚ}
    (h : optLE x y = true) : evalW w x ≤ evalW w y := by
  cases x with
  | none => exact evalW_nonneg w hpos y
  | some a =>
    cases y with
    | none => simp [optLE] at h
    | some b =>
      simp only [optLE, decide_eq_true_eq] at h
      exact hmono a b h

theorem sum_map_div (l : List ℚ) (d : ℚ) :
    (l.map fun x => x / d).sum = l.sum / d := by
  induction l with
  | nil => simp
  | cons x xs ih => simp [ih, add_div]

theorem div_le_div_nonneg_denom {a b d : ℚ} (h : a ≤ b) (hd : 0 ≤ d) :
    a / d ≤ b / d := by
  rcases eq_or_lt_of_le hd with h0 | h0
  · simp [← h0]
  · exact (div_le_div_iff_of_pos_right h0).mpr h

/-- Every softmax row sums to at most 1 (it equals `d / d` for the weight
mass `d` of the selected entries, which is 1 when the mass is nonzero and
0 when all selected entries are masked). -/
theorem softmaxW_sum_le_one (w : ℚ → ℚ) (sel : List (Option ℚ)) :
    (softmaxW w sel).sum ≤ 1 := by
  simp only [softmaxW]
  have hmm : (sel.map fun v => evalW w v / (sel.map (evalW w)).sum) =
      (sel.map (evalW w)).map fun x => x / (sel.map (evalW w)).sum := by
    rw [List.map_map]
    rfl
  rw [hmm, sum_map_div]
  rcases eq_or_ne ((sel.map (evalW w)).sum) 0 with h0 | h0
  · simp [h0]
  · rw [div_self h0]

/-- A softmax row over logits sorted non-increasingly is itself
non-increasing, for any positive monotone weight kernel. -/
theorem softmaxW_antitone (w : ℚ → ℚ) (hpos : ∀ q, 0 < w q)
    (hmono : ∀ a b : ℚ, a ≤ b → w a ≤ w b) (sel : List (Option ℚ))
    (hs : sel.Pairwise fun a b => optLE b a = true) :
    (softmaxW w sel).Pairwise fun x y => y ≤ x := by
  simp only [softmaxW]
  rw [List.pairwise_map]
  have hd : 0 ≤ (sel.map (evalW w)).sum := by
    apply List.sum_nonneg
    intro x hx
    obtain ⟨v, _, hv⟩ := List.mem_map.mp hx
    exact hv ▸ evalW_nonneg w hpos v
  exact hs.imp fun hab =>
    div_le_div_nonneg_denom (evalW_mono w hpos hmono hab) hd

theorem updateRows_length {α : Type} (L : List ℕ) (c : ℕ)
    (old : List (Option α)) (new : List α) :
    (updateRows L c old new).length =
      min old.length (min new.length L.length) := by
  simp [updateRows]

theorem updateRows_getElem? {α : Type} (L : List ℕ) (c : ℕ)
    (old : List (Option α)) (new : List α) (b : ℕ) :
    (updateRows L c old new)[b]? =
      old[b]?.bind fun o => new[b]?.bind fun n =>
        L[b]?.map fun l => if l = c then some n else o := by
  induction old generalizing new L b with
  | nil => simp [updateRows]
  | cons o os ih =>
    cases new with
    | nil => simp [updateRows]
    | cons n ns =>
      cases L with
      | nil => simp [updateRows]
      | cons l Ls =>
        cases b with
        | zero => simp [updateRows]
        | succ b => simpa [updateRows] using ih Ls ns b

/-- On a non-terminal pipeline stage the loop body only updates counters:
the output tensors are untouched and no exception can arise. -/
theorem decodeStep_not_last (S : Strategy) (vocab top_k : ℕ)
    (ctxLens : List ℕ) (init : Bool) (cursor counter : ℕ) (st : LoopState) :
    decodeStep S vocab top_k ctxLens init false cursor counter st =
      ({ st with
          itersStarted := st.itersStarted + 1
          forwardCalls := st.forwardCalls + (if init then 1 else 0)
          itersDone := st.itersDone + 1 }, none) := by
  cases init <;> simp [decodeStep, forward_step]

/-- A loop-body iteration on the terminal stage that does not raise is an
`init` iteration and writes the masked top-k rows of this iteration's
logits into the output tensors. -/
theorem decodeStep_last_success (S : Strategy) (vocab top_k : ℕ)
    (ctxLens : List ℕ) (init : Bool) (cursor counter : ℕ)
    (st st' : LoopState)
    (h : decodeStep S vocab top_k ctxLens init true cursor counter st
          = (st', none)) :
    init = true ∧
    st'.outputActions = updateRows ctxLens cursor st.outputActions
      ((S.forwardLogits counter).map fun r =>
        (topkPairs top_k (maskRow vocab r)).map Prod.fst) ∧
    st'.outputLogits = updateRows ctxLens cursor st.outputLogits
      ((S.forwardLogits counter).map fun r =>
        (topkPairs top_k (maskRow vocab r)).map Prod.snd) := by
  cases init with
  | false => simp [decodeStep, forward_step] at h
  | true =>
    simp only [decodeStep, forward_step, if_true] at h
    split at h
    · simp only [Prod.mk.injEq] at h
      refine ⟨rfl, ?_, ?_⟩ <;>
        (rw [← h.1]; simp [List.map_map, Function.comp_def])
    · simp at h

/-- The output tensors of one loop iteration keep every row whose context
length differs from the current cursor (shape hypotheses reflect the tensor
shapes enforced by torch). -/
theorem decodeStep_frame (S : Strategy) (vocab top_k : ℕ)
    (ctxLens : List ℕ) (init lastStage : Bool) (cursor counter : ℕ)
    (st : LoopState) (b : ℕ)
    (hb : ctxLens[b]? ≠ some cursor)
    (h1 : st.outputActions.length = ctxLens.length)
    (h2 : st.outputLogits.length = ctxLens.length)
    (hF : ∀ c, (S.forwardLogits c).length = ctxLens.length) :
    (decodeStep S vocab top_k ctxLens init lastStage cursor counter
        st).1.outputActions[b]? = st.outputActions[b]? ∧
    (decodeStep S vocab top_k ctxLens init lastStage cursor counter
        st).1.outputLogits[b]? = st.outputLogits[b]? := by
  cases lastStage with
  | false => rw [decodeStep_not_last]
             exact ⟨rfl, rfl⟩
  | true =>
    cases init with
    | false => simp [decodeStep, forward_step]
    | true =>
      simp only [decodeStep, forward_step, if_true]
      split
      · constructor <;>
        · rw [updateRows_getElem?]
          by_cases hlt : b < ctxLens.length
          · obtain ⟨l, hl⟩ : ∃ l, ctxLens[b]? = some l :=
              ⟨_, List.getElem?_eq_getElem hlt⟩
            obtain ⟨o, ho⟩ : ∃ o, st.outputActions[b]? = some o :=
              ⟨_, List.getElem?_eq_getElem (h1 ▸ hlt)⟩
            obtain ⟨o2, ho2⟩ : ∃ o2, st.outputLogits[b]? = some o2 :=
              ⟨_, List.getElem?_eq_getElem (h2 ▸ hlt)⟩
            obtain ⟨r, hr⟩ : ∃ r, (S.forwardLogits counter)[b]? = some r :=
              ⟨_, List.getElem?_eq_getElem (hF counter ▸ hlt)⟩
            have hlne : ¬ l = cursor := by
              intro hcontra
              exact hb (hcontra ▸ hl)
            simp [List.getElem?_map, hl, ho, ho2, hr, hlne]
          · have hnone : ctxLens[b]? = none :=
              List.getElem?_eq_none (by omega)
            have hnA : st.outputActions[b]? = none :=
              List.getElem?_eq_none (by omega)
            have hnL : st.outputLogits[b]? = none :=
              List.getElem?_eq_none (by omega)
            simp [List.getElem?_map, hnone, hnA, hnL]
      · exact ⟨rfl, rfl⟩

/-- One loop-body iteration keeps the batch shape of both output tensors. -/
theorem decodeStep_shape (S : Strategy) (vocab top_k : ℕ) (L : List ℕ)
    (init lastStage : Bool) (cursor counter : ℕ) (st st1 : LoopState)
    (e : Option String)
    (h : decodeStep S vocab top_k L init lastStage cursor counter st = (st1, e))
    (h1 : st.outputActions.length = L.length)
    (h2 : st.outputLogits.length = L.length)
    (hF : ∀ c, (S.forwardLogits c).length = L.length) :
    st1.outputActions.length = L.length ∧ st1.outputLogits.length = L.length := by
  cases lastStage with
  | false =>
    rw [decodeStep_not_last] at h
    obtain ⟨rfl, -⟩ : st1 = _ ∧ True := ⟨(Prod.mk.injEq .. ▸ h).1.symm, trivial⟩
    exact ⟨h1, h2⟩
  | true =>
    cases init with
    | false =>
      simp only [decodeStep, forward_step, Bool.false_eq_true, if_false,
        if_true, reduceIte, Prod.mk.injEq] at h
      obtain ⟨rfl, -⟩ : st1 = _ ∧ True := ⟨h.1.symm, trivial⟩
      exact ⟨h1, h2⟩
    | true =>
      simp only [decodeStep, forward_step, if_true] at h
      split at h
      · simp only [Prod.mk.injEq] at h
        obtain ⟨rfl, -⟩ : st1 = _ ∧ True := ⟨h.1.symm, trivial⟩
        constructor <;>
          simp [updateRows_length, h1, h2, hF counter]
      · simp only [Prod.mk.injEq] at h
        obtain ⟨rfl, -⟩ : st1 = _ ∧ True := ⟨h.1.symm, trivial⟩
        exact ⟨h1, h2⟩

/-- A non-raising terminal-stage iteration writes row `b` of the frontier
exactly when `context_lengths[b]` equals the current cursor, with the
frontier extracted from this iteration's logits. -/
theorem decodeStep_write (S : Strategy) (vocab top_k : ℕ) (L : List ℕ)
    (init : Bool) (cursor counter : ℕ) (st st' : LoopState)
    (h : decodeStep S vocab top_k L init true cursor counter st = (st', none))
    (b : ℕ) (hb : L[b]? = some cursor)
    (h1 : st.outputActions.length = L.length)
    (h2 : st.outputLogits.length = L.length)
    (hF : ∀ c, (S.forwardLogits c).length = L.length) :
    st'.outputActions[b]? =
      some (some (frontierActions S vocab top_k counter b)) ∧
    st'.outputLogits[b]? =
      some (some (frontierLogits S vocab top_k counter b)) := by
  obtain ⟨hinit, hA, hL2⟩ := decodeStep_last_success S vocab top_k L init
    cursor counter st st' h
  obtain ⟨hblt, -⟩ := List.getElem?_eq_some.mp hb
  obtain ⟨o, ho⟩ : ∃ o, st.outputActions[b]? = some o :=
    ⟨_, List.getElem?_eq_getElem (h1 ▸ hblt)⟩
  obtain ⟨o2, ho2⟩ : ∃ o2, st.outputLogits[b]? = some o2 :=
    ⟨_, List.getElem?_eq_getElem (h2 ▸ hblt)⟩
  obtain ⟨r, hr⟩ : ∃ r, (S.forwardLogits counter)[b]? = some r :=
    ⟨_, List.getElem?_eq_getElem (hF counter ▸ hblt)⟩
  constructor
  · rw [hA, updateRows_getElem?]
    simp [List.getElem?_map, hr, ho, hb, frontierActions]
  · rw [hL2, updateRows_getElem?]
    simp [List.getElem?_map, hr, ho2, hb, frontierLogits]

/-- Bookkeeping of one loop iteration: the iteration counter always
advances, and `forward_step` is invoked exactly once when `init` and never
otherwise — on the success and on the raise outcome alike. -/
theorem decodeStep_counters (S : Strategy) (vocab top_k : ℕ)
    (ctxLens : List ℕ) (init lastStage : Bool) (cursor counter : ℕ)
    (st : LoopState) :
    (decodeStep S vocab top_k ctxLens init lastStage cursor counter st).1.itersStarted
        = st.itersStarted + 1 ∧
    (decodeStep S vocab top_k ctxLens init lastStage cursor counter st).1.forwardCalls
        = st.forwardCalls + (if init then 1 else 0) := by
  cases init <;> cases lastStage <;>
    simp only [decodeStep, forward_step, if_true, if_false, Bool.false_eq_true,
      reduceIte] <;>
    (try split) <;> simp

theorem decodeStep_itersDone (S : Strategy) (vocab top_k : ℕ)
    (ctxLens : List ℕ) (init lastStage : Bool) (cursor counter : ℕ)
    (st st' : LoopState)
    (h : decodeStep S vocab top_k ctxLens init lastStage cursor counter st
          = (st', none)) :
    st'.itersDone = st.itersDone + 1 := by
  cases init <;> cases lastStage <;>
    simp only [decodeStep, forward_step, if_true, if_false, Bool.false_eq_true,
      reduceIte] at h <;>
    first
      | (cases h; rfl)
      | (split at h <;> cases h <;> rfl)
      | cases h

/-- Unfolding equation of the decode loop. -/
theorem decodeLoop_eq (S : Strategy) (vocab top_k : ℕ) (ctxLens : List ℕ)
    (init lastStage : Bool) (maxlen cursor counter : ℕ) (st : LoopState) :
    decodeLoop S vocab top_k ctxLens init lastStage maxlen cursor counter st =
      if cursor < maxlen then
        match decodeStep S vocab top_k ctxLens init lastStage cursor counter st with
        | (st', some e) => (st', some e)
        | (st', none) =>
            decodeLoop S vocab top_k ctxLens init lastStage maxlen
              (cursor + 1) (counter + 1) st'
      else (st, none) := by
  by_cases hc : cursor < maxlen
  · obtain ⟨fuel, hfuel⟩ : ∃ fuel, maxlen - cursor = fuel + 1 :=
      ⟨maxlen - cursor - 1, by omega⟩
    have hfuel1 : maxlen - (cursor + 1) = fuel := by omega
    simp only [decodeLoop, hfuel, hfuel1, decodeLoopAux, hc, if_true]
  · have h0 : maxlen - cursor = 0 := by omega
    simp only [decodeLoop, h0, decodeLoopAux, hc, if_false]

/-- Row-wise characterization of a non-raising decode loop: batch shapes are
preserved, row `b` (of context length `ℓ`) receives the frontier of the
iteration whose cursor equals `ℓ` when the terminal stage runs and the loop
window reaches `ℓ`, and keeps its previous contents otherwise. -/
theorem decodeLoop_row (S : Strategy) (vocab top_k : ℕ) (L : List ℕ)
    (init ls : Bool) (maxlen : ℕ) (b l : ℕ) (hb : L[b]? = some l)
    (hF : ∀ c, (S.forwardLogits c).length = L.length) :
    ∀ fuel cursor counter st st',
      maxlen - cursor ≤ fuel →
      st.outputActions.length = L.length →
      st.outputLogits.length = L.length →
      decodeLoop S vocab top_k L init ls maxlen cursor counter st
        = (st', none) →
      (st'.outputActions.length = L.length ∧
        st'.outputLogits.length = L.length) ∧
      (if ls = true ∧ cursor ≤ l ∧ l < maxlen then
          st'.outputActions[b]? =
              some (some (frontierActions S vocab top_k (counter + (l - cursor)) b)) ∧
            st'.outputLogits[b]? =
              some (some (frontierLogits S vocab top_k (counter + (l - cursor)) b))
        else
          st'.outputActions[b]? = st.outputActions[b]? ∧
            st'.outputLogits[b]? = st.outputLogits[b]?) := by
  intro fuel
  induction fuel with
  | zero =>
    intro cursor counter st st' hf h1 h2 hrun
    rw [decodeLoop_eq] at hrun
    have hc : ¬ cursor < maxlen := by omega
    rw [if_neg hc] at hrun
    obtain ⟨rfl, -⟩ : st' = st ∧ True := ⟨((Prod.mk.injEq ..).mp hrun).1.symm, trivial⟩
    refine ⟨⟨h1, h2⟩, ?_⟩
    rw [if_neg (fun hcontra => by omega)]
    exact ⟨rfl, rfl⟩
  | succ fuel ih =>
    intro cursor counter st st' hf h1 h2 hrun
    rw [decodeLoop_eq] at hrun
    by_cases hc : cursor < maxlen
    · rw [if_pos hc] at hrun
      rcases hstep : decodeStep S vocab top_k L init ls cursor counter st
        with ⟨st1, e⟩
      rw [hstep] at hrun
      cases e with
      | some msg => simp at hrun
      | none =>
        have hrun' : decodeLoop S vocab top_k L init ls maxlen (cursor + 1)
            (counter + 1) st1 = (st', none) := hrun
        obtain ⟨hs1, hs2⟩ := decodeStep_shape S vocab top_k L init ls cursor
          counter st st1 none hstep h1 h2 hF
        obtain ⟨⟨hl1, hl2⟩, hcond⟩ := ih (cursor + 1) (counter + 1) st1 st'
          (by omega) hs1 hs2 hrun'
        refine ⟨⟨hl1, hl2⟩, ?_⟩
        cases ls with
        | false =>
          rw [if_neg (by simp)] at hcond ⊢
          obtain ⟨e1, e2⟩ := hcond
          rw [decodeStep_not_last] at hstep
          obtain ⟨rfl, -⟩ : st1 = _ ∧ True :=
            ⟨((Prod.mk.injEq ..).mp hstep).1.symm, trivial⟩
          exact ⟨e1, e2⟩
        | true =>
          by_cases hcase : cursor ≤ l ∧ l < maxlen
          · rw [if_pos ⟨rfl, hcase.1, hcase.2⟩]
            by_cases hl : l = cursor
            · subst hl
              rw [if_neg (fun hcontra => by omega)] at hcond
              obtain ⟨e1, e2⟩ := hcond
              obtain ⟨w1, w2⟩ := decodeStep_write S vocab top_k L init l
                counter st st1 hstep b hb h1 h2 hF
              rw [Nat.sub_self, Nat.add_zero]
              exact ⟨e1.trans w1, e2.trans w2⟩
            · rw [if_pos ⟨rfl, by omega, hcase.2⟩] at hcond
              obtain ⟨e1, e2⟩ := hcond
              have harith : counter + 1 + (l - (cursor + 1))
                  = counter + (l - cursor) := by omega
              rw [harith] at e1 e2
              exact ⟨e1, e2⟩
          · rw [if_neg (fun hcontra => hcase ⟨hcontra.2.1, hcontra.2.2⟩)]
            have hlne : ¬ (l = cursor) := by
              intro hcontra
              exact hcase ⟨by omega, by omega⟩
            rw [if_neg (fun hcontra => hcase ⟨by omega, hcontra.2.2⟩)] at hcond
            obtain ⟨e1, e2⟩ := hcond
            have hfr := decodeStep_frame S vocab top_k L init true cursor
              counter st b (by simp [hb, hlne]) h1 h2 hF
            rw [hstep] at hfr
            exact ⟨e1.trans hfr.1, e2.trans hfr.2⟩
    · rw [if_neg hc] at hrun
      obtain ⟨rfl, -⟩ : st' = st ∧ True :=
        ⟨((Prod.mk.injEq ..).mp hrun).1.symm, trivial⟩
      refine ⟨⟨h1, h2⟩, ?_⟩
      rw [if_neg (fun hcontra => by omega)]
      exact ⟨rfl, rfl⟩

/-- The forward-call invariant: a state whose forward-call counter equals
its entered-iteration counter when `init` (and zero otherwise) keeps that
property through the whole loop. -/
theorem decodeLoop_forward_inv (S : Strategy) (vocab top_k : ℕ)
    (ctxLens : List ℕ) (init lastStage : Bool) (maxlen : ℕ) :
    ∀ fuel cursor counter st, maxlen - cursor ≤ fuel →
      st.forwardCalls = (if init then st.itersStarted else 0) →
      (decodeLoop S vocab top_k ctxLens init lastStage maxlen cursor counter
          st).1.forwardCalls =
        (if init then
          (decodeLoop S vocab top_k ctxLens init lastStage maxlen cursor
            counter st).1.itersStarted
         else 0) := by
  intro fuel
  induction fuel with
  | zero =>
    intro cursor counter st hf hinv
    rw [decodeLoop_eq]
    have : ¬ cursor < maxlen := by omega
    simp [this, hinv]
  | succ fuel ih =>
    intro cursor counter st hf hinv
    rw [decodeLoop_eq]
    by_cases hc : cursor < maxlen
    · simp only [hc, if_true]
      obtain ⟨h1, h2⟩ := decodeStep_counters S vocab top_k ctxLens init
        lastStage cursor counter st
      rcases hstep : decodeStep S vocab top_k ctxLens init lastStage cursor
          counter st with ⟨st1, e⟩
      rw [hstep] at h1 h2
      have hinv1 : st1.forwardCalls = (if init then st1.itersStarted else 0) := by
        cases init <;> simp_all
      cases e with
      | none => exact ih (cursor + 1) (counter + 1) st1 (by omega) hinv1
      | some msg => simpa using hinv1
    · simp [hc, hinv]

/-- On a run that does not raise, the loop completes exactly
`maxlen - cursor` iterations. -/
theorem decodeLoop_itersDone (S : Strategy) (vocab top_k : ℕ)
    (ctxLens : List ℕ) (init lastStage : Bool) (maxlen : ℕ) :
    ∀ fuel cursor counter st st', maxlen - cursor ≤ fuel →
      decodeLoop S vocab top_k ctxLens init lastStage maxlen cursor counter st
        = (st', none) →
      st'.itersDone = st.itersDone + (maxlen - cursor) := by
  intro fuel
  induction fuel with
  | zero =>
    intro cursor counter st st' hf hrun
    rw [decodeLoop_eq] at hrun
    have : ¬ cursor < maxlen := by omega
    simp only [this, if_false] at hrun
    cases hrun
    omega
  | succ fuel ih =>
    intro cursor counter st st' hf hrun
    rw [decodeLoop_eq] at hrun
    by_cases hc : cursor < maxlen
    · simp only [hc, if_true] at hrun
      rcases hstep : decodeStep S vocab top_k ctxLens init lastStage cursor
          counter st with ⟨st1, e⟩
      rw [hstep] at hrun
      cases e with
      | none =>
        have h1 := decodeStep_itersDone S vocab top_k ctxLens init lastStage
          cursor counter st st1 hstep
        have h2 := ih (cursor + 1) (counter + 1) st1 st' (by omega) hrun
        omega
      | some msg => cases hrun
    · simp only [hc, if_false] at hrun
      cases hrun
      omega

/-- A root-initialization iteration whose logits are wide enough for the
requested `top_k` never raises. -/
theorem decodeStep_no_raise (S : Strategy) (vocab top_k : ℕ) (L : List ℕ)
    (ls : Bool) (cursor counter : ℕ) (st : LoopState)
    (hall : ∀ r ∈ S.forwardLogits counter, top_k ≤ r.length) :
    (decodeStep S vocab top_k L true ls cursor counter st).2 = none := by
  cases ls with
  | false => simp [decodeStep, forward_step]
  | true =>
    simp only [decodeStep, forward_step, if_true]
    split
    · rfl
    · rename_i hfail
      exact absurd (List.all_eq_true.mpr fun r hr =>
        decide_eq_true (hall r hr)) hfail

/-- A root-initialization decode loop whose logits are always wide enough
for `top_k` completes without raising. -/
theorem decodeLoop_no_raise (S : Strategy) (vocab top_k : ℕ) (L : List ℕ)
    (ls : Bool) (maxlen : ℕ)
    (hall : ∀ c, ∀ r ∈ S.forwardLogits c, top_k ≤ r.length) :
    ∀ fuel cursor counter st, maxlen - cursor ≤ fuel →
      (decodeLoop S vocab top_k L true ls maxlen cursor counter st).2 = none := by
  intro fuel
  induction fuel with
  | zero =>
    intro cursor counter st hf
    rw [decodeLoop_eq]
    have hc : ¬ cursor < maxlen := by omega
    rw [if_neg hc]
  | succ fuel ih =>
    intro cursor counter st hf
    rw [decodeLoop_eq]
    by_cases hc : cursor < maxlen
    · rw [if_pos hc]
      rcases hstep : decodeStep S vocab top_k L true ls cursor counter st
        with ⟨st1, e⟩
      have he := decodeStep_no_raise S vocab top_k L ls cursor counter st
        (hall counter)
      rw [hstep] at he
      cases e with
      | some msg => simp at he
      | none => exact ih (cursor + 1) (counter + 1) st1 (by omega)
    · rw [if_neg hc]

/-- On a run that does not raise, the loop enters exactly `maxlen - cursor`
iterations. -/
theorem decodeLoop_itersStarted (S : Strategy) (vocab top_k : ℕ)
    (ctxLens : List ℕ) (init lastStage : Bool) (maxlen : ℕ) :
    ∀ fuel cursor counter st st', maxlen - cursor ≤ fuel →
      decodeLoop S vocab top_k ctxLens init lastStage maxlen cursor counter st
        = (st', none) →
      st'.itersStarted = st.itersStarted + (maxlen - cursor) := by
  intro fuel
  induction fuel with
  | zero =>
    intro cursor counter st st' hf hrun
    rw [decodeLoop_eq] at hrun
    have hc : ¬ cursor < maxlen := by omega
    rw [if_neg hc] at hrun
    obtain ⟨rfl, -⟩ : st' = st ∧ True :=
      ⟨((Prod.mk.injEq ..).mp hrun).1.symm, trivial⟩
    omega
  | succ fuel ih =>
    intro cursor counter st st' hf hrun
    rw [decodeLoop_eq] at hrun
    by_cases hc : cursor < maxlen
    · rw [if_pos hc] at hrun
      rcases hstep : decodeStep S vocab top_k ctxLens init lastStage cursor
          counter st with ⟨st1, e⟩
      rw [hstep] at hrun
      cases e with
      | none =>
        have h1 := (decodeStep_counters S vocab top_k ctxLens init lastStage
          cursor counter st).1
        rw [hstep] at h1
        have h2 := ih (cursor + 1) (counter + 1) st1 st' (by omega) hrun
        have harith : maxlen - cursor = maxlen - (cursor + 1) + 1 := by omega
        rw [h2, h1, harith]
        omega
      | some msg => simp at hrun
    · rw [if_neg hc] at hrun
      obtain ⟨rfl, -⟩ : st' = st ∧ True :=
        ⟨((Prod.mk.injEq ..).mp hrun).1.symm, trivial⟩
      omega

/-- Once the cursor has passed a row's context length, the rest of the loop
never touches that row again, whether or not the run later raises. -/
theorem decodeLoop_preserve (S : Strategy) (vocab top_k : ℕ) (L : List ℕ)
    (init ls : Bool) (maxlen b l : ℕ) (hb : L[b]? = some l)
    (hF : ∀ c, (S.forwardLogits c).length = L.length) :
    ∀ fuel cursor counter st, maxlen - cursor ≤ fuel →
      st.outputActions.length = L.length →
      st.outputLogits.length = L.length →
      l < cursor →
      (decodeLoop S vocab top_k L init ls maxlen cursor counter
          st).1.outputActions[b]? = st.outputActions[b]? ∧
      (decodeLoop S vocab top_k L init ls maxlen cursor counter
          st).1.outputLogits[b]? = st.outputLogits[b]? := by
  intro fuel
  induction fuel with
  | zero =>
    intro cursor counter st hf h1 h2 hl
    rw [decodeLoop_eq]
    have hc : ¬ cursor < maxlen := by omega
    rw [if_neg hc]
    exact ⟨rfl, rfl⟩
  | succ fuel ih =>
    intro cursor counter st hf h1 h2 hl
    rw [decodeLoop_eq]
    by_cases hc : cursor < maxlen
    · rw [if_pos hc]
      rcases hstep : decodeStep S vocab top_k L init ls cursor counter st
        with ⟨st1, e⟩
      have hbne : L[b]? ≠ some cursor := by
        rw [hb]
        intro hcontra
        have : l = cursor := by exact_mod_cast Option.some.inj hcontra
        omega
      have hfr := decodeStep_frame S vocab top_k L init ls cursor counter st
        b hbne h1 h2 hF
      rw [hstep] at hfr
      obtain ⟨hs1, hs2⟩ := decodeStep_shape S vocab top_k L init ls cursor
        counter st st1 e hstep h1 h2 hF
      cases e with
      | some msg => exact ⟨hfr.1, hfr.2⟩
      | none =>
        have := ih (cursor + 1) (counter + 1) st1 (by omega) hs1 hs2 (by omega)
        exact ⟨this.1.trans hfr.1, this.2.trans hfr.2⟩
    · rw [if_neg hc]
      exact ⟨rfl, rfl⟩

theorem min?_getD_le {l : List ℕ} {x : ℕ} (h : x ∈ l) : l.min?.getD 0 ≤ x := by
  rcases hm : l.min? with _ | m
  · rw [List.min?_eq_none_iff] at hm
    subst hm
    simp at h
  · simpa using (List.le_min?_iff (fun _ _ _ => Nat.le_min) hm).mp le_rfl x h

theorem le_max?_getD {l : List ℕ} {x : ℕ} (h : x ∈ l) : x ≤ l.max?.getD 0 := by
  rcases hm : l.max? with _ | m
  · rw [List.max?_eq_none_iff] at hm
    subst hm
    simp at h
  · simpa using (List.max?_le_iff (fun _ _ _ => Nat.max_le) hm).mp le_rfl x h

/-- The decode loop preserves the batch shape of both output tensors,
whether or not the run raises. -/
theorem decodeLoop_shape (S : Strategy) (vocab top_k : ℕ) (L : List ℕ)
    (init ls : Bool) (maxlen : ℕ)
    (hF : ∀ c, (S.forwardLogits c).length = L.length) :
    ∀ fuel cursor counter st, maxlen - cursor ≤ fuel →
      st.outputActions.length = L.length →
      st.outputLogits.length = L.length →
      (decodeLoop S vocab top_k L init ls maxlen cursor counter
          st).1.outputActions.length = L.length ∧
      (decodeLoop S vocab top_k L init ls maxlen cursor counter
          st).1.outputLogits.length = L.length := by
  intro fuel
  induction fuel with
  | zero =>
    intro cursor counter st hf h1 h2
    rw [decodeLoop_eq]
    have hc : ¬ cursor < maxlen := by omega
    rw [if_neg hc]
    exact ⟨h1, h2⟩
  | succ fuel ih =>
    intro cursor counter st hf h1 h2
    rw [decodeLoop_eq]
    by_cases hc : cursor < maxlen
    · rw [if_pos hc]
      rcases hstep : decodeStep S vocab top_k L init ls cursor counter st
        with ⟨st1, e⟩
      obtain ⟨hs1, hs2⟩ := decodeStep_shape S vocab top_k L init ls cursor
        counter st st1 e hstep h1 h2 hF
      cases e with
      | some msg => exact ⟨hs1, hs2⟩
      | none => exact ih (cursor + 1) (counter + 1) st1 (by omega) hs1 hs2
    · rw [if_neg hc]
      exact ⟨h1, h2⟩

/-- The frontier of a row whose logits are at least `top_k` wide has exactly
`top_k` actions and `top_k` selected logits. -/
theorem frontier_length (S : Strategy) (vocab top_k c b : ℕ)
    (hb : b < (S.forwardLogits c).length)
    (hall : ∀ r ∈ S.forwardLogits c, top_k ≤ r.length) :
    (frontierActions S vocab top_k c b).length = top_k ∧
    (frontierLogits S vocab top_k c b).length = top_k := by
  obtain ⟨r, hr⟩ : ∃ r, (S.forwardLogits c)[b]? = some r :=
    ⟨_, List.getElem?_eq_getElem hb⟩
  have hmem : r ∈ S.forwardLogits c := by
    obtain ⟨hlt, hval⟩ := List.getElem?_eq_some.mp hr
    exact hval ▸ List.getElem_mem hlt
  have hwide : top_k ≤ (maskRow vocab r).length := by
    rw [maskRow_length]
    exact hall r hmem
  constructor <;>
    simp [frontierActions, frontierLogits, hr, topkPairs_length _ _ hwide]

/-- Both outcome components of `sample_sequence_batch` mirror the final
decode-loop state. -/
theorem sample_sequence_batch_outputs (S : Strategy)
    (context_tokens : List (List ℤ)) (context_lengths : List ℕ)
    (top_k : ℕ) (init : Bool) (depths : List ℤ) (sessions : List ℕ)
    (lastStage firstStage : Bool) (vocab : ℕ) :
    (sample_sequence_batch S context_tokens context_lengths top_k init depths
        sessions lastStage firstStage vocab).1.output_actions =
      (decodeLoop S vocab top_k context_lengths init lastStage
        (S.clip_max_len (1 + context_lengths.max?.getD 0))
        (context_lengths.min?.getD 0) 0
        (initState context_tokens.length)).1.outputActions ∧
    (sample_sequence_batch S context_tokens context_lengths top_k init depths
        sessions lastStage firstStage vocab).1.output_logits =
      (decodeLoop S vocab top_k context_lengths init lastStage
        (S.clip_max_len (1 + context_lengths.max?.getD 0))
        (context_lengths.min?.getD 0) 0
        (initState context_tokens.length)).1.outputLogits ∧
    (sample_sequence_batch S context_tokens context_lengths top_k init depths
        sessions lastStage firstStage vocab).2 =
      (decodeLoop S vocab top_k context_lengths init lastStage
        (S.clip_max_len (1 + context_lengths.max?.getD 0))
        (context_lengths.min?.getD 0) 0
        (initState context_tokens.length)).2 := by
  simp only [sample_sequence_batch]
  rcases hrun : decodeLoop S vocab top_k context_lengths init lastStage
      (S.clip_max_len (1 + context_lengths.max?.getD 0))
      (context_lengths.min?.getD 0) 0 (initState context_tokens.length)
    with ⟨st, e⟩
  cases e <;> simp

/-- A root-initialization call on the terminal stage with sufficiently wide
logits and a non-clipping length target completes and fills every frontier
row with the top-k extraction of the iteration matching that row's context
length. -/
theorem root_run_rows (S : Strategy) (context_tokens : List (List ℤ))
    (context_lengths : List ℕ) (top_k : ℕ) (depths : List ℤ)
    (sessions : List ℕ) (firstStage : Bool) (vocab : ℕ)
    (hL : context_lengths.length = context_tokens.length)
    (hF : ∀ c, (S.forwardLogits c).length = context_lengths.length)
    (hall : ∀ c, ∀ r ∈ S.forwardLogits c, top_k ≤ r.length)
    (hclip : context_lengths.max?.getD 0 <
      S.clip_max_len (1 + context_lengths.max?.getD 0)) :
    (sample_sequence_batch S context_tokens context_lengths top_k true depths
        sessions true firstStage vocab).2 = none ∧
    (sample_sequence_batch S context_tokens context_lengths top_k true depths
        sessions true firstStage vocab).1.output_actions.length =
      context_tokens.length ∧
    (sample_sequence_batch S context_tokens context_lengths top_k true depths
        sessions true firstStage vocab).1.output_logits.length =
      context_tokens.length ∧
    ∀ (b l : ℕ), context_lengths[b]? = some l →
      (sample_sequence_batch S context_tokens context_lengths top_k true
          depths sessions true firstStage vocab).1.output_actions[b]? =
        some (some (frontierActions S vocab top_k
          (l - context_lengths.min?.getD 0) b)) ∧
      (sample_sequence_batch S context_tokens context_lengths top_k true
          depths sessions true firstStage vocab).1.output_logits[b]? =
        some (some (frontierLogits S vocab top_k
          (l - context_lengths.min?.getD 0) b)) := by
  obtain ⟨hOA, hOL, hE⟩ := sample_sequence_batch_outputs S context_tokens
    context_lengths top_k true depths sessions true firstStage vocab
  rcases hrun : decodeLoop S vocab top_k context_lengths true true
      (S.clip_max_len (1 + context_lengths.max?.getD 0))
      (context_lengths.min?.getD 0) 0 (initState context_tokens.length)
    with ⟨st, e⟩
  rw [hrun] at hOA hOL hE
  have he : e = none := by
    have := decodeLoop_no_raise S vocab top_k context_lengths true
      (S.clip_max_len (1 + context_lengths.max?.getD 0)) hall
      (S.clip_max_len (1 + context_lengths.max?.getD 0))
      (context_lengths.min?.getD 0) 0 (initState context_tokens.length)
      (by omega)
    rw [hrun] at this
    exact this
  subst he
  obtain ⟨hsh1, hsh2⟩ := decodeLoop_shape S vocab top_k context_lengths true
    true (S.clip_max_len (1 + context_lengths.max?.getD 0)) hF
    (S.clip_max_len (1 + context_lengths.max?.getD 0))
    (context_lengths.min?.getD 0) 0 (initState context_tokens.length)
    (by omega) (by simp [initState, hL]) (by simp [initState, hL])
  rw [hrun] at hsh1 hsh2
  refine ⟨by rw [hE], by rw [hOA, hsh1, hL], by rw [hOL, hsh2, hL], ?_⟩
  intro b l hb
  have hmem : l ∈ context_lengths := by
    obtain ⟨hlt, hval⟩ := List.getElem?_eq_some.mp hb
    exact hval ▸ List.getElem_mem hlt
  have hmin : context_lengths.min?.getD 0 ≤ l := min?_getD_le hmem
  have hmax : l < S.clip_max_len (1 + context_lengths.max?.getD 0) :=
    lt_of_le_of_lt (le_max?_getD hmem) hclip
  obtain ⟨-, hcond⟩ := decodeLoop_row S vocab top_k context_lengths true true
    (S.clip_max_len (1 + context_lengths.max?.getD 0)) b l hb hF
    (S.clip_max_len (1 + context_lengths.max?.getD 0))
    (context_lengths.min?.getD 0) 0 (initState context_tokens.length) st
    (by omega) (by simp [initState, hL]) (by simp [initState, hL]) hrun
  rw [if_pos ⟨rfl, hmin, hmax⟩] at hcond
  rw [hOA, hOL]
  simpa using hcond

/-- The collaborator-call counters of `sample_sequence_batch` mirror the
final decode-loop state. -/
theorem sample_sequence_batch_counters (S : Strategy)
    (context_tokens : List (List ℤ)) (context_lengths : List ℕ)
    (top_k : ℕ) (init : Bool) (depths : List ℤ) (sessions : List ℕ)
    (lastStage firstStage : Bool) (vocab : ℕ) :
    (sample_sequence_batch S context_tokens context_lengths top_k init depths
        sessions lastStage firstStage vocab).1.forwardCalls =
      (decodeLoop S vocab top_k context_lengths init lastStage
        (S.clip_max_len (1 + context_lengths.max?.getD 0))
        (context_lengths.min?.getD 0) 0
        (initState context_tokens.length)).1.forwardCalls ∧
    (sample_sequence_batch S context_tokens context_lengths top_k init depths
        sessions lastStage firstStage vocab).1.itersStarted =
      (decodeLoop S vocab top_k context_lengths init lastStage
        (S.clip_max_len (1 + context_lengths.max?.getD 0))
        (context_lengths.min?.getD 0) 0
        (initState context_tokens.length)).1.itersStarted := by
  simp only [sample_sequence_batch]
  rcases hrun : decodeLoop S vocab top_k context_lengths init lastStage
      (S.clip_max_len (1 + context_lengths.max?.getD 0))
      (context_lengths.min?.getD 0) 0 (initState context_tokens.length)
    with ⟨st, e⟩
  cases e <;> simp

/-- The whole call `sample_sequence_batch` invokes `forward_step` once per
entered loop iteration when `init`, and never on a continuation pass. -/
theorem sample_sequence_batch_forwardCalls (S : Strategy)
    (context_tokens : List (List ℤ)) (context_lengths : List ℕ)
    (top_k : ℕ) (init : Bool) (depths : List ℤ) (sessions : List ℕ)
    (lastStage firstStage : Bool) (vocab : ℕ) :
    (sample_sequence_batch S context_tokens context_lengths top_k init depths
        sessions lastStage firstStage vocab).1.forwardCalls =
      (if init then
        (sample_sequence_batch S context_tokens context_lengths top_k init
          depths sessions lastStage firstStage vocab).1.itersStarted
       else 0) := by
  have hinv := decodeLoop_forward_inv S vocab top_k context_lengths init
    lastStage (S.clip_max_len (1 + context_lengths.max?.getD 0))
    (S.clip_max_len (1 + context_lengths.max?.getD 0))
    (context_lengths.min?.getD 0) 0 (initState context_tokens.length)
    (by omega) (by simp [initState])
  simp only [sample_sequence_batch]
  rcases hrun : decodeLoop S vocab top_k context_lengths init lastStage
      (S.clip_max_len (1 + context_lengths.max?.getD 0))
      (context_lengths.min?.getD 0) 0 (initState context_tokens.length)
    with ⟨st, e⟩
  rw [hrun] at hinv
  cases e <;> simpa using hinv

/-- Claim C3: in every iteration of the decode loop the model forward step
executes exactly when the pass is a root-initialization pass (`init`);
continuation passes never invoke it, over one iteration and over the whole
`sample_sequence_batch` call alike. -/
theorem forward_step_iff_init (S : Strategy) (vocab top_k : ℕ)
    (ctxLens : List ℕ) (init lastStage : Bool) (cursor counter : ℕ)
    (st : LoopState) (context_tokens : List (List ℤ))
    (context_lengths : List ℕ) (depths : List ℤ) (sessions : List ℕ)
    (firstStage : Bool) :
    (decodeStep S vocab top_k ctxLens init lastStage cursor counter
        st).1.forwardCalls = st.forwardCalls + (if init then 1 else 0) ∧
    (sample_sequence_batch S context_tokens context_lengths top_k init depths
        sessions lastStage firstStage vocab).1.forwardCalls =
      (if init then
        (sample_sequence_batch S context_tokens context_lengths top_k init
          depths sessions lastStage firstStage vocab).1.itersStarted
       else 0) :=
  ⟨(decodeStep_counters S vocab top_k ctxLens init lastStage cursor counter
      st).2,
   sample_sequence_batch_forwardCalls S context_tokens context_lengths top_k
     init depths sessions lastStage firstStage vocab⟩

/-- Claim C4: on a continuation (non-init) pass executed by the terminal
pipeline stage whose decode loop runs at least one iteration, reading
`output[0]["logits"]` from the forward output dishonored to `None` raises,
and `sample_sequence_batch` propagates exactly that exception. -/
theorem continuation_terminal_stage_raises (S : Strategy)
    (context_tokens : List (List ℤ)) (context_lengths : List ℕ)
    (top_k : ℕ) (depths : List ℤ) (sessions : List ℕ) (firstStage : Bool)
    (vocab : ℕ)
    (henter : context_lengths.min?.getD 0 <
      S.clip_max_len (1 + context_lengths.max?.getD 0)) :
    (sample_sequence_batch S context_tokens context_lengths top_k false depths
        sessions true firstStage vocab).2 =
      some "TypeError: NoneType object is not subscriptable" := by
  simp only [sample_sequence_batch]
  rw [decodeLoop_eq]
  simp [henter, decodeStep, forward_step]

/-- Claim C4 witness: a concrete continuation request on the terminal stage
raises the `NoneType` error. -/
theorem continuation_terminal_stage_raises_witness :
    ([3, 3] : List ℕ).min?.getD 0 <
      demoStrategy.clip_max_len (1 + ([3, 3] : List ℕ).max?.getD 0) ∧
    (sample_sequence_batch demoStrategy [[9], [9]] [3, 3] 2 false [1, 1]
        [10, 11] true false 3).2 =
      some "TypeError: NoneType object is not subscriptable" :=
  ⟨by decide,
   continuation_terminal_stage_raises demoStrategy [[9], [9]] [3, 3] 2 [1, 1]
     [10, 11] false 3 (by decide)⟩

/-- Claim C5: the decode loop targets
`maxlen = clip_max_len(1 + max(context_lengths))`, starts its cursor at
`min(context_lengths)` and advances it by one per iteration while
`cursor < maxlen`, so a run that completes performs exactly
`maxlen - min(context_lengths)` iterations — in particular exactly one when
the cursor enters at `maxlen - 1`. -/
theorem decode_loop_iteration_count (S : Strategy)
    (context_tokens : List (List ℤ)) (context_lengths : List ℕ)
    (top_k : ℕ) (init : Bool) (depths : List ℤ) (sessions : List ℕ)
    (lastStage firstStage : Bool) (vocab : ℕ)
    (hok : (sample_sequence_batch S context_tokens context_lengths top_k init
      depths sessions lastStage firstStage vocab).2 = none) :
    (sample_sequence_batch S context_tokens context_lengths top_k init depths
        sessions lastStage firstStage vocab).1.itersDone =
      S.clip_max_len (1 + context_lengths.max?.getD 0) -
        context_lengths.min?.getD 0 ∧
    (context_lengths.min?.getD 0 + 1 =
        S.clip_max_len (1 + context_lengths.max?.getD 0) →
      (sample_sequence_batch S context_tokens context_lengths top_k init
        depths sessions lastStage firstStage vocab).1.itersDone = 1) := by
  simp only [sample_sequence_batch] at hok ⊢
  rcases hrun : decodeLoop S vocab top_k context_lengths init lastStage
      (S.clip_max_len (1 + context_lengths.max?.getD 0))
      (context_lengths.min?.getD 0) 0 (initState context_tokens.length)
    with ⟨st, e⟩
  cases e with
  | some msg => rw [hrun] at hok; simp at hok
  | none =>
    have hdone := decodeLoop_itersDone S vocab top_k context_lengths init
      lastStage (S.clip_max_len (1 + context_lengths.max?.getD 0))
      (S.clip_max_len (1 + context_lengths.max?.getD 0))
      (context_lengths.min?.getD 0) 0 (initState context_tokens.length) st
      (by omega) hrun
    simp only [initState] at hdone
    constructor
    · simpa using hdone
    · intro hone
      simp only [hdone]
      omega

/-- Claim C5 witness: a concrete batch entering at
`cursor = maxlen - 1 = 2` completes exactly one decode iteration. -/
theorem decode_loop_iteration_count_witness :
    (sample_sequence_batch demoStrategy [[7, 8], [7, 8]] [2, 2] 2 true [0, 0]
        [10, 11] true false 3).2 = none ∧
    ([2, 2] : List ℕ).min?.getD 0 + 1 =
      demoStrategy.clip_max_len (1 + ([2, 2] : List ℕ).max?.getD 0) ∧
    (sample_sequence_batch demoStrategy [[7, 8], [7, 8]] [2, 2] 2 true [0, 0]
        [10, 11] true false 3).1.itersDone = 1 :=
  ⟨by decide, by decide,
   (decode_loop_iteration_count demoStrategy [[7, 8], [7, 8]] [2, 2] 2 true
      [0, 0] [10, 11] true false 3 (by decide)).2 (by decide)⟩

/-- Claim C6: an iteration of the decode loop writes only the frontier rows
of samples whose context length equals the current cursor
(`batch_update_indicator`); every other row of the output tensors is left
unchanged by that iteration, and once the cursor has passed a sample's
context length no later iteration of the loop changes its row again. -/
theorem batch_update_indicator_frame (S : Strategy) (vocab top_k : ℕ)
    (L : List ℕ) (init lastStage : Bool) (maxlen cursor counter : ℕ)
    (st : LoopState) (b l : ℕ) (hb : L[b]? = some l)
    (h1 : st.outputActions.length = L.length)
    (h2 : st.outputLogits.length = L.length)
    (hF : ∀ c, (S.forwardLogits c).length = L.length) :
    (l ≠ cursor →
      (decodeStep S vocab top_k L init lastStage cursor counter
          st).1.outputActions[b]? = st.outputActions[b]? ∧
      (decodeStep S vocab top_k L init lastStage cursor counter
          st).1.outputLogits[b]? = st.outputLogits[b]?) ∧
    (l < cursor →
      (decodeLoop S vocab top_k L init lastStage maxlen cursor counter
          st).1.outputActions[b]? = st.outputActions[b]? ∧
      (decodeLoop S vocab top_k L init lastStage maxlen cursor counter
          st).1.outputLogits[b]? = st.outputLogits[b]?) := by
  constructor
  · intro hne
    refine decodeStep_frame S vocab top_k L init lastStage cursor counter st
      b ?_ h1 h2 hF
    rw [hb]
    intro hcontra
    exact hne (Option.some.inj hcontra)
  · intro hlt
    exact decodeLoop_preserve S vocab top_k L init lastStage maxlen b l hb hF
      maxlen cursor counter st (by omega) h1 h2 hlt

/-- Claim C6 witness: in the demo batch, the iteration at cursor 2 leaves
row 0 (context length 1) unchanged, and the loop tail starting at cursor 2
never rewrites it. -/
theorem batch_update_indicator_frame_witness :
    ([1, 2] : List ℕ)[0]? = some 1 ∧
    (initState 2).outputActions.length = ([1, 2] : List ℕ).length ∧
    (initState 2).outputLogits.length = ([1, 2] : List ℕ).length ∧
    ((1 ≠ 2 →
      (decodeStep demoStrategy 3 2 [1, 2] true true 2 1
          (initState 2)).1.outputActions[0]? = (initState 2).outputActions[0]? ∧
      (decodeStep demoStrategy 3 2 [1, 2] true true 2 1
          (initState 2)).1.outputLogits[0]? = (initState 2).outputLogits[0]?) ∧
    (1 < 2 →
      (decodeLoop demoStrategy 3 2 [1, 2] true true 3 2 1
          (initState 2)).1.outputActions[0]? = (initState 2).outputActions[0]? ∧
      (decodeLoop demoStrategy 3 2 [1, 2] true true 3 2 1
          (initState 2)).1.outputLogits[0]? = (initState 2).outputLogits[0]?)) :=
  ⟨by decide, by decide, by decide,
   batch_update_indicator_frame demoStrategy 3 2 [1, 2] true true 3 2 1
     (initState 2) 0 1 (by decide) (by decide) (by decide)
     (fun c => by by_cases hc : c = 0 <;> simp [demoStrategy, hc])⟩

/-- Claim C9: the frontier tensors are allocated uninitialized and row `b`
is written only in the iteration whose cursor equals that sample's context
length, so on the terminal stage a completed run returns row `b`
initialized iff `context_lengths[b] < clip_max_len(1 + max(context_lengths))`;
when the clip brings the target at or below a sample's context length that
sample's row comes back with its arbitrary uninitialized contents. -/
theorem uninitialized_rows_iff_clipped (S : Strategy)
    (context_tokens : List (List ℤ)) (context_lengths : List ℕ)
    (top_k : ℕ) (init : Bool) (depths : List ℤ) (sessions : List ℕ)
    (firstStage : Bool) (vocab : ℕ)
    (hL : context_lengths.length = context_tokens.length)
    (hF : ∀ c, (S.forwardLogits c).length = context_lengths.length)
    (hok : (sample_sequence_batch S context_tokens context_lengths top_k init
      depths sessions true firstStage vocab).2 = none) :
    ∀ (b l : ℕ), context_lengths[b]? = some l →
      ((sample_sequence_batch S context_tokens context_lengths top_k init
          depths sessions true firstStage vocab).1.output_actions[b]? =
            some none ↔
        S.clip_max_len (1 + context_lengths.max?.getD 0) ≤ l) ∧
      ((sample_sequence_batch S context_tokens context_lengths top_k init
          depths sessions true firstStage vocab).1.output_logits[b]? =
            some none ↔
        S.clip_max_len (1 + context_lengths.max?.getD 0) ≤ l) := by
  intro b l hb
  obtain ⟨hOA, hOL, hE⟩ := sample_sequence_batch_outputs S context_tokens
    context_lengths top_k init depths sessions true firstStage vocab
  rcases hrun : decodeLoop S vocab top_k context_lengths init true
      (S.clip_max_len (1 + context_lengths.max?.getD 0))
      (context_lengths.min?.getD 0) 0 (initState context_tokens.length)
    with ⟨st, e⟩
  rw [hrun] at hOA hOL hE
  have he : e = none := by
    rw [hok] at hE
    exact hE.symm
  subst he
  obtain ⟨-, hcond⟩ := decodeLoop_row S vocab top_k context_lengths init true
    (S.clip_max_len (1 + context_lengths.max?.getD 0)) b l hb hF
    (S.clip_max_len (1 + context_lengths.max?.getD 0))
    (context_lengths.min?.getD 0) 0 (initState context_tokens.length) st
    (by omega) (by simp [initState, hL]) (by simp [initState, hL]) hrun
  have hblt : b < context_lengths.length :=
    (List.getElem?_eq_some.mp hb).1
  have hmem : l ∈ context_lengths := by
    obtain ⟨hlt, hval⟩ := List.getElem?_eq_some.mp hb
    exact hval ▸ List.getElem_mem hlt
  have hmin : context_lengths.min?.getD 0 ≤ l := min?_getD_le hmem
  rw [hOA, hOL]
  by_cases hcase : l < S.clip_max_len (1 + context_lengths.max?.getD 0)
  · rw [if_pos ⟨rfl, hmin, hcase⟩] at hcond
    rw [hcond.1, hcond.2]
    constructor <;> (constructor <;> intro hcontra) <;> first
      | (exact absurd (Option.some.inj hcontra) (by simp))
      | omega
  · rw [if_neg (fun hcontra => hcase hcontra.2.2)] at hcond
    rw [hcond.1, hcond.2]
    have hrep : (initState context_tokens.length).outputActions[b]? =
        some none := by
      simp only [initState]
      rw [List.getElem?_replicate]
      simp [hL ▸ hblt]
    have hrep2 : (initState context_tokens.length).outputLogits[b]? =
        some (none : Option (List (Option ℚ))) := by
      simp only [initState]
      rw [List.getElem?_replicate]
      simp [hL ▸ hblt]
    rw [hrep, hrep2]
    constructor <;> simp <;> omega

/-- Claim C9 witness: with a clip that caps the target at 2, the sample of
context length 2 comes back uninitialized while the run itself succeeds. -/
theorem uninitialized_rows_iff_clipped_witness :
    ([1, 2] : List ℕ).length = ([[5, 0], [7, 8]] : List (List ℤ)).length ∧
    (sample_sequence_batch demoClipStrategy [[5, 0], [7, 8]] [1, 2] 2 true
        [0, 0] [10, 11] true false 3).2 = none ∧
    ([1, 2] : List ℕ)[1]? = some 2 ∧
    ((sample_sequence_batch demoClipStrategy [[5, 0], [7, 8]] [1, 2] 2 true
        [0, 0] [10, 11] true false 3).1.output_actions[1]? = some none ↔
      demoClipStrategy.clip_max_len (1 + ([1, 2] : List ℕ).max?.getD 0) ≤ 2) :=
  ⟨by decide, by decide, by decide,
   ((uninitialized_rows_iff_clipped demoClipStrategy [[5, 0], [7, 8]] [1, 2]
      2 true [0, 0] [10, 11] false 3 (by decide)
      (fun c => by
        by_cases hc : c = 0 <;> simp [demoClipStrategy, demoStrategy, hc])
      (by decide) 1 2 (by decide)).1)⟩

/-- Claim C1: a valid root request (context lengths matching the `B` prompt
rows, `top_k = K` at most the true vocabulary, gathered logits at least
`vocab` wide, clip leaving the decode window open) completes on the
terminal stage and produces a `B×K` frontier for both actions and policy;
with the softmax kernel any positive monotone weight (as `exp` is), every
policy row is non-increasing along the top-k axis and sums to at most 1
(it normalizes only the `K` selected logits). -/
theorem root_frontier_shape_policy (S : Strategy)
    (context_tokens : List (List ℤ)) (context_lengths : List ℕ)
    (top_k : ℕ) (depths : List ℤ) (sessions : List ℕ) (firstStage : Bool)
    (vocab : ℕ) (w : ℚ → ℚ)
    (hL : context_lengths.length = context_tokens.length)
    (hF : ∀ c, (S.forwardLogits c).length = context_lengths.length)
    (hk : top_k ≤ vocab)
    (hwide : ∀ c, ∀ r ∈ S.forwardLogits c, vocab ≤ r.length)
    (hclip : context_lengths.max?.getD 0 <
      S.clip_max_len (1 + context_lengths.max?.getD 0))
    (hpos : ∀ q, 0 < w q) (hmono : ∀ a b : ℚ, a ≤ b → w a ≤ w b) :
    (sample_sequence_batch S context_tokens context_lengths top_k true depths
        sessions true firstStage vocab).2 = none ∧
    (sample_sequence_batch S context_tokens context_lengths top_k true depths
        sessions true firstStage vocab).1.output_actions.length =
      context_tokens.length ∧
    (sample_sequence_batch S context_tokens context_lengths top_k true depths
        sessions true firstStage vocab).1.output_logits.length =
      context_tokens.length ∧
    ∀ (b l : ℕ), context_lengths[b]? = some l →
      ∃ arow lrow,
        (sample_sequence_batch S context_tokens context_lengths top_k true
            depths sessions true firstStage vocab).1.output_actions[b]? =
          some (some arow) ∧
        (sample_sequence_batch S context_tokens context_lengths top_k true
            depths sessions true firstStage vocab).1.output_logits[b]? =
          some (some lrow) ∧
        arow.length = top_k ∧
        (softmaxW w lrow).length = top_k ∧
        (softmaxW w lrow).Pairwise (fun x y : ℚ => y ≤ x) ∧
        (softmaxW w lrow).sum ≤ 1 := by
  have hall : ∀ c, ∀ r ∈ S.forwardLogits c, top_k ≤ r.length :=
    fun c r hr => le_trans hk (hwide c r hr)
  obtain ⟨hok, hlen1, hlen2, hrows⟩ := root_run_rows S context_tokens
    context_lengths top_k depths sessions firstStage vocab hL hF hall hclip
  refine ⟨hok, hlen1, hlen2, ?_⟩
  intro b l hb
  obtain ⟨hA, hLg⟩ := hrows b l hb
  have hblt : b < (S.forwardLogits (l - context_lengths.min?.getD 0)).length := by
    rw [hF]
    exact (List.getElem?_eq_some.mp hb).1
  obtain ⟨hflen1, hflen2⟩ := frontier_length S vocab top_k
    (l - context_lengths.min?.getD 0) b hblt
    (hall (l - context_lengths.min?.getD 0))
  refine ⟨_, _, hA, hLg, hflen1, ?_, ?_, ?_⟩
  · simp [softmaxW, hflen2]
  · exact softmaxW_antitone w hpos hmono _
      (topkPairs_snd_sorted top_k _)
  · exact softmaxW_sum_le_one w _

/-- Claim C1 witness: the demo root request (B = 2, K = 2, vocabulary 3,
padded width 4) completes without raising and its policy rows under the
constant weight kernel are non-increasing and sum to at most 1. -/
theorem root_frontier_shape_policy_witness :
    (2 : ℕ) ≤ 3 ∧
    ([1, 2] : List ℕ).max?.getD 0 <
      demoStrategy.clip_max_len (1 + ([1, 2] : List ℕ).max?.getD 0) ∧
    (sample_sequence_batch demoStrategy [[5, 0], [7, 8]] [1, 2] 2 true [0, 0]
        [10, 11] true false 3).2 = none ∧
    (sample_sequence_batch demoStrategy [[5, 0], [7, 8]] [1, 2] 2 true [0, 0]
        [10, 11] true false 3).1.output_actions.length = 2 :=
  ⟨by decide, by decide,
   (root_frontier_shape_policy demoStrategy [[5, 0], [7, 8]] [1, 2] 2 [0, 0]
      [10, 11] false 3 (fun _ => 1) (by decide)
      (fun c => by by_cases hc : c = 0 <;> simp [demoStrategy, hc])
      (by decide)
      (fun c r hr => by
        by_cases hc : c = 0 <;> simp [demoStrategy, hc] at hr <;>
          rcases hr with rfl | rfl <;> decide)
      (by decide) (fun _ => one_pos) (fun _ _ _ => le_refl 1)).1,
   (root_frontier_shape_policy demoStrategy [[5, 0], [7, 8]] [1, 2] 2 [0, 0]
      [10, 11] false 3 (fun _ => 1) (by decide)
      (fun c => by by_cases hc : c = 0 <;> simp [demoStrategy, hc])
      (by decide)
      (fun c r hr => by
        by_cases hc : c = 0 <;> simp [demoStrategy, hc] at hr <;>
          rcases hr with rfl | rfl <;> decide)
      (by decide) (fun _ => one_pos) (fun _ _ _ => le_refl 1)).2.1⟩

/-- On a non-raising root-initialization call the `save_kv_cache` trace is
exactly one root registration (action `-1`, the prompt tokens as payload)
followed by one registration per top-k column at the incremented depth,
parented at `(session, 0, -1)`, with no payload. -/
theorem sample_sequence_batch_saveLog (S : Strategy)
    (context_tokens : List (List ℤ)) (context_lengths : List ℕ)
    (top_k : ℕ) (depths : List ℤ) (sessions : List ℕ)
    (lastStage firstStage : Bool) (vocab : ℕ)
    (hok : (sample_sequence_batch S context_tokens context_lengths top_k true
      depths sessions lastStage firstStage vocab).2 = none) :
    (sample_sequence_batch S context_tokens context_lengths top_k true depths
        sessions lastStage firstStage vocab).1.saveLog =
      SaveEntry.mk sessions depths
        (List.replicate context_tokens.length none)
        (List.replicate context_tokens.length (some (-1)))
        (some context_tokens) ::
      (List.range top_k).map (fun j =>
        SaveEntry.mk sessions (depths.map (· + 1))
          (sessions.map fun s => some (s, (0 : ℤ), (-1 : ℤ)))
          (column j (sample_sequence_batch S context_tokens context_lengths
            top_k true depths sessions lastStage firstStage
            vocab).1.output_actions) none) := by
  obtain ⟨hOA, -, hE⟩ := sample_sequence_batch_outputs S context_tokens
    context_lengths top_k true depths sessions lastStage firstStage vocab
  rcases hrun : decodeLoop S vocab top_k context_lengths true lastStage
      (S.clip_max_len (1 + context_lengths.max?.getD 0))
      (context_lengths.min?.getD 0) 0 (initState context_tokens.length)
    with ⟨st, e⟩
  rw [hrun] at hE hOA
  have he : e = none := by simpa using hE.symm.trans hok
  subst he
  rw [hOA]
  simp only [sample_sequence_batch]
  rw [hrun]
  simp

/-- Claim C7: a root-initialization pass that completes registers exactly
one root node per session at depth 0 with action `-1` and the prompt token
payload, then exactly `top_k` children per session at depth 1, the `j`-th
child carrying column `j` of the output actions (an actual top-k action id
for every sample) and no token/cache payload. -/
theorem root_expansion_registration (S : Strategy)
    (context_tokens : List (List ℤ)) (context_lengths : List ℕ)
    (top_k : ℕ) (depths : List ℤ) (sessions : List ℕ) (firstStage : Bool)
    (vocab : ℕ)
    (hdep : depths = List.replicate context_tokens.length 0)
    (hL : context_lengths.length = context_tokens.length)
    (hF : ∀ c, (S.forwardLogits c).length = context_lengths.length)
    (hall : ∀ c, ∀ r ∈ S.forwardLogits c, top_k ≤ r.length)
    (hclip : context_lengths.max?.getD 0 <
      S.clip_max_len (1 + context_lengths.max?.getD 0)) :
    (sample_sequence_batch S context_tokens context_lengths top_k true depths
        sessions true firstStage vocab).2 = none ∧
    (sample_sequence_batch S context_tokens context_lengths top_k true depths
        sessions true firstStage vocab).1.saveLog.length = top_k + 1 ∧
    (sample_sequence_batch S context_tokens context_lengths top_k true depths
        sessions true firstStage vocab).1.saveLog[0]? =
      some (SaveEntry.mk sessions
        (List.replicate context_tokens.length 0)
        (List.replicate context_tokens.length none)
        (List.replicate context_tokens.length (some (-1)))
        (some context_tokens)) ∧
    (∀ j : ℕ, j < top_k →
      (sample_sequence_batch S context_tokens context_lengths top_k true
          depths sessions true firstStage vocab).1.saveLog[j + 1]? =
        some (SaveEntry.mk sessions
          (List.replicate context_tokens.length 1)
          (sessions.map fun s => some (s, (0 : ℤ), (-1 : ℤ)))
          (column j (sample_sequence_batch S context_tokens context_lengths
            top_k true depths sessions true firstStage
            vocab).1.output_actions) none)) ∧
    (∀ (j b l : ℕ), j < top_k → context_lengths[b]? = some l →
      ∃ a : ℕ,
        (frontierActions S vocab top_k (l - context_lengths.min?.getD 0)
          b)[j]? = some a ∧
        (column j (sample_sequence_batch S context_tokens context_lengths
          top_k true depths sessions true firstStage
          vocab).1.output_actions)[b]? = some (some (Int.ofNat a))) := by
  subst hdep
  obtain ⟨hok, hlen1, -, hrows⟩ := root_run_rows S context_tokens
    context_lengths top_k (List.replicate context_tokens.length 0) sessions
    firstStage vocab hL hF hall hclip
  have hlog := sample_sequence_batch_saveLog S context_tokens context_lengths
    top_k (List.replicate context_tokens.length 0) sessions true firstStage
    vocab hok
  have hmapdep : (List.replicate context_tokens.length (0 : ℤ)).map (· + 1) =
      List.replicate context_tokens.length (1 : ℤ) := by
    rw [List.map_replicate]
    norm_num
  refine ⟨hok, ?_, ?_, ?_, ?_⟩
  · simp [hlog]
  · simp [hlog]
  · intro j hj
    simp [hlog, hmapdep, List.getElem?_map, List.getElem?_range, hj]
  · intro j b l hj hb
    obtain ⟨hA, -⟩ := hrows b l hb
    have hblt : b <
        (S.forwardLogits (l - context_lengths.min?.getD 0)).length := by
      rw [hF]
      exact (List.getElem?_eq_some.mp hb).1
    obtain ⟨hflen, -⟩ := frontier_length S vocab top_k
      (l - context_lengths.min?.getD 0) b hblt
      (hall (l - context_lengths.min?.getD 0))
    have hjlen : j < (frontierActions S vocab top_k
        (l - context_lengths.min?.getD 0) b).length := by
      rw [hflen]
      exact hj
    obtain ⟨a, ha⟩ : ∃ a,
        (frontierActions S vocab top_k (l - context_lengths.min?.getD 0)
          b)[j]? = some a :=
      ⟨_, List.getElem?_eq_getElem hjlen⟩
    refine ⟨a, ha, ?_⟩
    simp [column, List.getElem?_map, hA, ha]

/-- Claim C7 witness: the demo root request registers one root entry and
`top_k = 2` child entries. -/
theorem root_expansion_registration_witness :
    ([0, 0] : List ℤ) = List.replicate 2 0 ∧
    (sample_sequence_batch demoStrategy [[5, 0], [7, 8]] [1, 2] 2 true [0, 0]
        [10, 11] true false 3).2 = none ∧
    (sample_sequence_batch demoStrategy [[5, 0], [7, 8]] [1, 2] 2 true [0, 0]
        [10, 11] true false 3).1.saveLog.length = 2 + 1 :=
  ⟨by decide,
   (root_expansion_registration demoStrategy [[5, 0], [7, 8]] [1, 2] 2 [0, 0]
      [10, 11] false 3 (by decide) (by decide)
      (fun c => by by_cases hc : c = 0 <;> simp [demoStrategy, hc])
      (fun c r hr => by
        by_cases hc : c = 0 <;> simp [demoStrategy, hc] at hr <;>
          rcases hr with rfl | rfl <;> decide)
      (by decide)).1,
   (root_expansion_registration demoStrategy [[5, 0], [7, 8]] [1, 2] 2 [0, 0]
      [10, 11] false 3 (by decide) (by decide)
      (fun c => by by_cases hc : c = 0 <;> simp [demoStrategy, hc])
      (fun c r hr => by
        by_cases hc : c = 0 <;> simp [demoStrategy, hc] at hr <;>
          rcases hr with rfl | rfl <;> decide)
      (by decide)).2.1⟩

/-- Claim C8: on the driving rank a malformed request — prompts together
with action/depth, or none of them — fails the classification asserts
locally, before `send_generate_info` or any other collective call is
issued: the event trace is empty and an error is reported. -/
theorem malformed_request_rejected_before_collective (S : Strategy)
    (inputs : Option (List (List ℤ))) (action depth : Option (List ℤ))
    (sessions : List ℕ) (top_k : ℕ) (lastStage firstStage : Bool)
    (vocab : ℕ)
    (hmal : (inputs.isSome ∧ action.isSome ∧ depth.isSome) ∨
      (inputs = none ∧ action = none ∧ depth = none)) :
    (search S inputs action depth sessions top_k lastStage firstStage
        vocab).err.isSome ∧
    (search S inputs action depth sessions top_k lastStage firstStage
        vocab).events = [] := by
  rcases hmal with ⟨hi, ha, hd⟩ | ⟨hi, ha, hd⟩
  · obtain ⟨p, hp⟩ := Option.isSome_iff_exists.mp hi
    obtain ⟨a, haa⟩ := Option.isSome_iff_exists.mp ha
    obtain ⟨d, hdd⟩ := Option.isSome_iff_exists.mp hd
    subst hp haa hdd
    simp [search, assertFail]
  · subst hi ha hd
    simp [search, assertFail]

/-- Claim C8 witness: a request carrying both prompts and action/depth is
rejected with an empty collective trace. -/
theorem malformed_request_rejected_witness :
    ((some [[5]] : Option (List (List ℤ))).isSome ∧
      (some [0] : Option (List ℤ)).isSome ∧
      (some [1] : Option (List ℤ)).isSome ∧ True) ∧
    (search demoStrategy (some [[5]]) (some [0]) (some [1]) [10] 2 true false
        3).err.isSome ∧
    (search demoStrategy (some [[5]]) (some [0]) (some [1]) [10] 2 true false
        3).events = [] :=
  ⟨by decide,
   malformed_request_rejected_before_collective demoStrategy (some [[5]])
     (some [0]) (some [1]) [10] 2 true false 3
     (Or.inl ⟨by decide, by decide, by decide⟩)⟩

/-- Claim C2 counterexample: requesting `top_k = 4` against a true
vocabulary of 3 (padded logits width 4) raises no contract error anywhere —
the call completes and two forward passes are executed, refuting the claim
that such a request errors at the call boundary before any forward pass. -/
theorem top_k_contract_counterexample :
    (3 : ℕ) < 4 ∧
    (sample_sequence_batch demoStrategy [[5, 0], [7, 8]] [1, 2] 4 true [0, 0]
        [10, 11] true false 3).2 = none ∧
    (sample_sequence_batch demoStrategy [[5, 0], [7, 8]] [1, 2] 4 true [0, 0]
        [10, 11] true false 3).1.forwardCalls = 2 := by
  refine ⟨by decide, by decide, by decide⟩

/-- Claim C2 amended: no top_k validation exists at the call boundary.
A `top_k` larger than the true vocabulary but within the gathered logits
width is silently accepted — the decode completes with forward passes
executed; only a `top_k` exceeding the logits width raises, inside the
loop, after a forward pass has already run. -/
theorem top_k_overshoot_not_validated (S : Strategy)
    (context_tokens : List (List ℤ)) (context_lengths : List ℕ)
    (top_k : ℕ) (depths : List ℤ) (sessions : List ℕ) (firstStage : Bool)
    (vocab : ℕ)
    (hvocab : vocab < top_k)
    (henter : context_lengths.min?.getD 0 <
      S.clip_max_len (1 + context_lengths.max?.getD 0)) :
    ((∀ c, ∀ r ∈ S.forwardLogits c, top_k ≤ r.length) →
      (sample_sequence_batch S context_tokens context_lengths top_k true
          depths sessions true firstStage vocab).2 = none ∧
      0 < (sample_sequence_batch S context_tokens context_lengths top_k true
          depths sessions true firstStage vocab).1.forwardCalls) ∧
    ((∃ r ∈ S.forwardLogits 0, r.length < top_k) →
      (sample_sequence_batch S context_tokens context_lengths top_k true
          depths sessions true firstStage vocab).2 =
        some "RuntimeError: selected index k out of range" ∧
      0 < (sample_sequence_batch S context_tokens context_lengths top_k true
          depths sessions true firstStage vocab).1.forwardCalls) := by
  have hcnt := sample_sequence_batch_counters S context_tokens
    context_lengths top_k true depths sessions true firstStage vocab
  obtain ⟨-, -, hE⟩ := sample_sequence_batch_outputs S context_tokens
    context_lengths top_k true depths sessions true firstStage vocab
  constructor
  · intro hall
    rcases hrun : decodeLoop S vocab top_k context_lengths true true
        (S.clip_max_len (1 + context_lengths.max?.getD 0))
        (context_lengths.min?.getD 0) 0 (initState context_tokens.length)
      with ⟨st, e⟩
    rw [hrun] at hE hcnt
    have he : e = none := by
      have := decodeLoop_no_raise S vocab top_k context_lengths true
        (S.clip_max_len (1 + context_lengths.max?.getD 0)) hall
        (S.clip_max_len (1 + context_lengths.max?.getD 0))
        (context_lengths.min?.getD 0) 0 (initState context_tokens.length)
        (by omega)
      rw [hrun] at this
      exact this
    subst he
    refine ⟨by simpa using hE, ?_⟩
    have hstart := decodeLoop_itersStarted S vocab top_k context_lengths true
      true (S.clip_max_len (1 + context_lengths.max?.getD 0))
      (S.clip_max_len (1 + context_lengths.max?.getD 0))
      (context_lengths.min?.getD 0) 0 (initState context_tokens.length) st
      (by omega) hrun
    have hfc := decodeLoop_forward_inv S vocab top_k context_lengths true
      true (S.clip_max_len (1 + context_lengths.max?.getD 0))
      (S.clip_max_len (1 + context_lengths.max?.getD 0))
      (context_lengths.min?.getD 0) 0 (initState context_tokens.length)
      (by omega) (by simp [initState])
    rw [hrun] at hfc
    simp only [if_true] at hfc
    rw [hcnt.1, hfc, hstart]
    simp only [initState]
    omega
  · intro hshort
    obtain ⟨r, hr, hrlen⟩ := hshort
    rcases hstep : decodeStep S vocab top_k context_lengths true true
        (context_lengths.min?.getD 0) 0 (initState context_tokens.length)
      with ⟨st1, e⟩
    have hcounters := decodeStep_counters S vocab top_k context_lengths true
      true (context_lengths.min?.getD 0) 0 (initState context_tokens.length)
    rw [hstep] at hcounters
    have hse : e = some "RuntimeError: selected index k out of range" := by
      simp only [decodeStep, forward_step, if_true] at hstep
      split at hstep
      · rename_i hgood
        have hwide : top_k ≤ r.length := by
          simpa using List.all_eq_true.mp hgood r hr
        omega
      · exact ((Prod.mk.injEq ..).mp hstep).2.symm
    subst hse
    have hrunB : decodeLoop S vocab top_k context_lengths true true
        (S.clip_max_len (1 + context_lengths.max?.getD 0))
        (context_lengths.min?.getD 0) 0 (initState context_tokens.length) =
        (st1, some "RuntimeError: selected index k out of range") := by
      rw [decodeLoop_eq, if_pos henter, hstep]
    rw [hrunB] at hE hcnt
    refine ⟨by simpa using hE, ?_⟩
    have hfc1 : st1.forwardCalls = 1 := by
      simpa [initState] using hcounters.2
    rw [hcnt.1]
    show 0 < st1.forwardCalls
    omega

/-- Claim C10 counterexample: a concrete root request (which per the code's
own asserts must pass `depth=None`) completes with the depth tensor inside
`search` holding 1 everywhere, yet there is no caller-visible depth tensor:
the caller's `depth` argument is `None` before and after the call, so it
cannot "hold 1 in every entry". -/
theorem caller_depth_counterexample :
    (search demoStrategy (some [[5], [7, 8]]) none none [10, 11] 2 true false
        3).err = none ∧
    (search demoStrategy (some [[5], [7, 8]]) none none [10, 11] 2 true false
        3).internalDepthAfter = some [1, 1] ∧
    (search demoStrategy (some [[5], [7, 8]]) none none [10, 11] 2 true false
        3).callerDepthAfter = none ∧
    (search demoStrategy (some [[5], [7, 8]]) none none [10, 11] 2 true false
        3).callerDepthAfter ≠ some (List.replicate 2 1) := by
  refine ⟨by decide, by decide, by decide, by decide⟩

/-- Claim C10 amended: on a root-initialization pass that completes,
`sample_sequence_batch` does increment every entry of its `depths` tensor in
place before registering the children, but for a root request the caller
passes `depth=None` (enforced by the classification asserts), so the
mutated tensor is internal to `search` and no caller-visible depth tensor
exists, let alone one holding 1. -/
theorem depths_increment_internal_only (S : Strategy)
    (prompts : List (List ℤ)) (sessions : List ℕ) (top_k : ℕ)
    (lastStage firstStage : Bool) (vocab : ℕ)
    (context_tokens : List (List ℤ)) (context_lengths : List ℕ)
    (depths : List ℤ) (sess2 : List ℕ)
    (hok : (sample_sequence_batch S context_tokens context_lengths top_k true
      depths sess2 lastStage firstStage vocab).2 = none) :
    (sample_sequence_batch S context_tokens context_lengths top_k true depths
        sess2 lastStage firstStage vocab).1.depths_final =
      depths.map (· + 1) ∧
    (search S (some prompts) none none sessions top_k lastStage firstStage
        vocab).callerDepthAfter = none := by
  constructor
  · simp only [sample_sequence_batch] at hok ⊢
    rcases hrun : decodeLoop S vocab top_k context_lengths true lastStage
        (S.clip_max_len (1 + context_lengths.max?.getD 0))
        (context_lengths.min?.getD 0) 0 (initState context_tokens.length)
      with ⟨st, e⟩
    cases e with
    | some msg => rw [hrun] at hok; simp at hok
    | none => simp
  · simp only [search]
    by_cases hz : (S.tokenize_batch prompts).1.length = 0 <;>
      simp [List.head?_replicate, hz]

/-- Claim C2 amended, witness: `top_k = 4` against vocabulary 3 with padded
width 4 is silently accepted — no error and a positive forward-pass
count. -/
theorem top_k_overshoot_not_validated_witness :
    ((3 : ℕ) < 4 ∧
      ([1, 2] : List ℕ).min?.getD 0 <
        demoStrategy.clip_max_len (1 + ([1, 2] : List ℕ).max?.getD 0)) ∧
    ((sample_sequence_batch demoStrategy [[5, 0], [7, 8]] [1, 2] 4 true [0, 0]
        [10, 11] true false 3).2 = none ∧
      0 < (sample_sequence_batch demoStrategy [[5, 0], [7, 8]] [1, 2] 4 true
        [0, 0] [10, 11] true false 3).1.forwardCalls) :=
  ⟨⟨by decide, by decide⟩,
   (top_k_overshoot_not_validated demoStrategy [[5, 0], [7, 8]] [1, 2] 4
      [0, 0] [10, 11] false 3 (by decide) (by decide)).1
     (fun c r hr => by
        by_cases hc : c = 0 <;> simp [demoStrategy, hc] at hr <;>
          rcases hr with rfl | rfl <;> decide)⟩

/-- Claim C10 amended, witness: the demo root decode increments its internal
depths tensor from 0 to 1 while the root-shaped `search` call exposes no
caller depth tensor. -/
theorem depths_increment_internal_only_witness :
    (sample_sequence_batch demoStrategy [[5, 0], [7, 8]] [1, 2] 2 true [0, 0]
        [10, 11] true false 3).2 = none ∧
    (sample_sequence_batch demoStrategy [[5, 0], [7, 8]] [1, 2] 2 true [0, 0]
        [10, 11] true false 3).1.depths_final =
      ([0, 0] : List ℤ).map (· + 1) ∧
    (search demoStrategy (some [[5], [7, 8]]) none none [10, 11] 2 true false
        3).callerDepthAfter = none :=
  ⟨by decide,
   (depths_increment_internal_only demoStrategy [[5], [7, 8]] [10, 11] 2 true
      false 3 [[5, 0], [7, 8]] [1, 2] [0, 0] [10, 11] (by decide)).1,
   (depths_increment_internal_only demoStrategy [[5], [7, 8]] [10, 11] 2 true
      false 3 [[5, 0], [7, 8]] [1, 2] [0, 0] [10, 11] (by decide)).2⟩

end NemoSearch
